import Mathlib

/-!
# SaveAllTabImages

A shallow embedding of `background.js`: the in-page image scanner of
`collectImages` (plain images, `srcset` best-pick, CSS backgrounds, per-page
deduplication), `makeFilename`, and the two download runs `downloadAll` and
`downloadLargestPerTab` together with the message listener that answers them.

Conventions of the embedding.

* A JavaScript string is a `List Char`.
* A score (`area` in the source) is a JavaScript Number.  Every value the
  scanner stores is an integer or an infinity: image areas are products of
  unsigned integers, `parseInt` and `Math.round` return integral values, and
  `NaN` is replaced by `0` (`... || 0`) before it is stored.  `Score` therefore
  has no `NaN`; the sign of a zero is not represented, since the scanner only
  observes scores through `>` and `||`.
* Double precision is modelled exactly: decimal literals and products are
  rounded to the nearest double, ties to even.
* Browser services (the URL parser, tab enumeration, script injection, folder
  resolution, the download service) are parameters: an exception or a rejected
  promise is the value `none`.
-/

namespace SaveAllTabImages

/-- A JavaScript string. -/
abbrev Str := List Char

/-! ## Strings -/

/-- White space as matched by `String.prototype.trim`, by `\s` and skipped by
`parseInt`/`parseFloat`: the WhiteSpace and LineTerminator code points. -/
def isWhiteSpace (c : Char) : Bool :=
  let n := c.toNat
  n == 0x09 || n == 0x0A || n == 0x0B || n == 0x0C || n == 0x0D || n == 0x20 ||
  n == 0xA0 || n == 0x1680 || (0x2000 ≤ n && n ≤ 0x200A) || n == 0x2028 ||
  n == 0x2029 || n == 0x202F || n == 0x205F || n == 0x3000 || n == 0xFEFF

/-- Leading white space removed (the first step of `parseInt` and `parseFloat`). -/
def trimStart (s : Str) : Str := s.dropWhile isWhiteSpace

/-- The method `String.prototype.trim`. -/
def trim (s : Str) : Str := ((trimStart s).reverse.dropWhile isWhiteSpace).reverse

/-- The call `s.split(sep)` for a one-character separator. -/
def splitOn (sep : Char) : Str → List Str
  | [] => [[]]
  | c :: cs =>
    if c = sep then [] :: splitOn sep cs
    else
      match splitOn sep cs with
      | [] => [[c]]
      | p :: ps => (c :: p) :: ps

/-- Worker of `splitWs`; the flag says that the previous character belonged to
a separator run, which the current white space character then extends. -/
def splitWsAux : Bool → Str → List Str
  | _, [] => [[]]
  | inRun, c :: cs =>
    if isWhiteSpace c then
      if inRun then splitWsAux true cs else [] :: splitWsAux true cs
    else
      match splitWsAux false cs with
      | [] => [[c]]
      | p :: ps => (c :: p) :: ps

/-- The call `s.split(/\s+/)`: the pieces between maximal white space runs. -/
def splitWs (s : Str) : List Str := splitWsAux false s

/-- The call `s.endsWith(c)` for a one-character argument. -/
def endsWith (s : Str) (c : Char) : Bool := s.getLast? == some c

/-- The call `s.includes(c)` for a one-character argument. -/
def includes (s : Str) (c : Char) : Bool := s.contains c

/-! ## Numbers -/

/-- A stored score: an integral double or an infinity. -/
inductive Score where
  | negInf
  | int (z : ℤ)
  | posInf
  deriving DecidableEq, Repr

/-- The comparison `a > b` of two scores. -/
def Score.gt : Score → Score → Bool
  | .posInf, .posInf => false
  | .posInf, _ => true
  | .int _, .posInf => false
  | .int a, .int b => decide (b < a)
  | .int _, .negInf => true
  | .negInf, _ => false

/-- Number of binary digits of `n`, by halving (`fuel` bounds the recursion). -/
def bitLenAux : ℕ → ℕ → ℕ
  | 0, _ => 0
  | fuel + 1, n => if n = 0 then 0 else bitLenAux fuel (n / 2) + 1

/-- Number of binary digits of `n`: `2 ^ (bitLen n - 1) ≤ n < 2 ^ bitLen n` for `0 < n`. -/
def bitLen (n : ℕ) : ℕ := bitLenAux n n

/-- Division `n / d` rounded to the nearest integer, ties to the even one. -/
def roundEvenDiv (n d : ℕ) : ℕ :=
  let f := n / d
  let r := n % d
  if 2 * r < d then f
  else if d < 2 * r then f + 1
  else if f % 2 = 0 then f else f + 1

/-- The magnitude of a finite double, `m * 2 ^ e`, or `none` for an overflow to
infinity. -/
abbrev Mag := Option (ℕ × ℤ)

/-- The binade of the positive rational `n / d`: the exponent `b` with
`2 ^ b ≤ n / d < 2 ^ (b + 1)`. -/
def binade (n d : ℕ) : ℤ :=
  let k : ℤ := (bitLen n : ℤ) - (bitLen d : ℤ)
  if 0 ≤ k then (if n < d * 2 ^ k.toNat then k - 1 else k)
  else (if n * 2 ^ (-k).toNat < d then k - 1 else k)

/-- The rational `n / d` rounded to a multiple of `2 ^ p`, nearest, ties to
even; `none` when the result exceeds the largest double
`(2 ^ 53 - 1) * 2 ^ 971`. -/
def roundAt (n d : ℕ) (p : ℤ) : Mag :=
  let m : ℕ :=
    if 0 ≤ p then roundEvenDiv n (d * 2 ^ p.toNat)
    else roundEvenDiv (n * 2 ^ (-p).toNat) d
  if 971 < p ∨ (p = 971 ∧ 2 ^ 53 ≤ m) then none else some (m, p)

/-- The non-negative rational `n / d` rounded to double precision, nearest,
ties to even: 53 significant bits, the last one worth at least `2 ^ (-1074)`. -/
def roundRatio (n d : ℕ) : Mag :=
  if n = 0 then some (0, 0)
  else roundAt n d (max (binade n d) (-1022) - 52)

/-- A double: `NaN`, an infinity, or a finite value `± m * 2 ^ e`. -/
inductive F64 where
  | nan
  | inf (neg : Bool)
  | fin (neg : Bool) (m : ℕ) (e : ℤ)
  deriving DecidableEq, Repr

/-- A rounded magnitude with its sign. -/
def F64.ofMag (neg : Bool) : Mag → F64
  | none => .inf neg
  | some (m, e) => .fin neg m e

/-- An integer with a sign bit as a score; a zero has no sign. -/
def signed (neg : Bool) (n : ℕ) : Score :=
  if neg then .int (-(n : ℤ)) else .int n

/-- A double that holds an integer, as a score: `m * 2 ^ e` with `0 ≤ e`, or
with the low `-e` bits of `m` zero. -/
def magToScore (neg : Bool) : Mag → Score
  | none => if neg then .negInf else .posInf
  | some (m, e) => if 0 ≤ e then signed neg (m * 2 ^ e.toNat) else signed neg (m / 2 ^ (-e).toNat)

/-- Decimal digit test. -/
def isDigit (c : Char) : Bool := 48 ≤ c.toNat && c.toNat ≤ 57

/-- The mathematical value of a string of decimal digits. -/
def digitsValue (ds : Str) : ℕ := ds.foldl (fun n c => 10 * n + (c.toNat - 48)) 0

/-- An optional sign in front of a numeric literal. -/
def takeSign : Str → Bool × Str
  | '-' :: r => (true, r)
  | '+' :: r => (false, r)
  | s => (false, s)

/-- The call `parseInt(s, 10)`; `none` is `NaN`. -/
def parseInt (s : Str) : Option Score :=
  let (neg, r) := takeSign (trimStart s)
  let z := r.takeWhile isDigit
  if z = [] then none else some (magToScore neg (roundRatio (digitsValue z) 1))

/-- The exponent part `e±ddd` at the head of `s`, when there is one. -/
def exponentPart : Str → ℤ
  | c :: r =>
    if c = 'e' ∨ c = 'E' then
      match r with
      | '-' :: ds => if ds.takeWhile isDigit = [] then 0 else -(digitsValue (ds.takeWhile isDigit) : ℤ)
      | '+' :: ds => if ds.takeWhile isDigit = [] then 0 else (digitsValue (ds.takeWhile isDigit) : ℤ)
      | ds => if ds.takeWhile isDigit = [] then 0 else (digitsValue (ds.takeWhile isDigit) : ℤ)
    else 0
  | [] => 0

/-- The call `parseFloat(s)`: the longest prefix that is a decimal literal
(`Infinity`, or digits with an optional fraction and exponent), rounded. -/
def parseFloat (s : Str) : F64 :=
  let (neg, r) := takeSign (trimStart s)
  if "Infinity".toList.isPrefixOf r then .inf neg
  else
    let ip := r.takeWhile isDigit
    let r1 := r.dropWhile isDigit
    let (fp, r2) :=
      match r1 with
      | '.' :: r' => (r'.takeWhile isDigit, r'.dropWhile isDigit)
      | _ => (([] : Str), r1)
    if ip = [] ∧ fp = [] then .nan
    else
      let mant := digitsValue (ip ++ fp)
      let k : ℤ := exponentPart r2 - (fp.length : ℤ)
      if 0 ≤ k then F64.ofMag neg (roundRatio (mant * 10 ^ k.toNat) 1)
      else F64.ofMag neg (roundRatio mant (10 ^ (-k).toNat))

/-- The product `x * 1000` in double precision. -/
def mul1000 : F64 → F64
  | .nan => .nan
  | .inf neg => .inf neg
  | .fin neg m e =>
    if 0 ≤ e then F64.ofMag neg (roundRatio (1000 * m * 2 ^ e.toNat) 1)
    else F64.ofMag neg (roundRatio (1000 * m) (2 ^ (-e).toNat))

/-- The call `Math.round(x)`: the integer `⌊x + 1/2⌋`; `none` is `NaN`. -/
def mathRound : F64 → Option Score
  | .nan => none
  | .inf neg => some (if neg then .negInf else .posInf)
  | .fin neg m e =>
    let num : ℤ := if neg then -(m : ℤ) else m
    if 0 ≤ e then some (.int (num * 2 ^ e.toNat))
    else some (.int ((2 * num + 2 ^ (-e).toNat) / (2 * 2 ^ (-e).toNat)))

/-- The expression `x || 0` for a number `x`: `NaN` and zero are falsy. -/
def orZero : Option Score → Score
  | none => .int 0
  | some s => if s = .int 0 then .int 0 else s

/-- The product `a * b` of two non-negative integers, as a double. -/
def mulNat (a b : ℕ) : Score := magToScore false (roundRatio (a * b) 1)

/-- The expression `a || b || 0` for two non-negative integers. -/
def firstNonZero (a b : ℕ) : ℕ := if a ≠ 0 then a else if b ≠ 0 then b else 0

/-! ## The URL parser of the platform -/

/-- The fields of a parsed `URL` object that the program reads. -/
structure Url where
  href : Str
  protocol : Str
  pathname : Str
  deriving DecidableEq, Repr

/-- The `URL` constructor: `parse input none` is `new URL(input)` and
`parse input (some base)` is `new URL(input, base)`; `none` means it throws. -/
structure UrlApi where
  parse : Str → Option Str → Option Url

/-! ## `isAllowedUrl` -/

/-- The function `isAllowedUrl`; an absent (`undefined`) URL is `none`. -/
def isAllowedUrl (api : UrlApi) (url : Option Str) : Bool :=
  match url with
  | none => false
  | some u =>
    if u = [] then false
    else
      match api.parse u none with
      | some r =>
        r.protocol == "http:".toList || r.protocol == "https:".toList ||
          r.protocol == "file:".toList
      | none => false

/-! ## The page scanner (the function injected by `collectImages`) -/

/-- An image candidate `{ url, area }`. -/
structure Candidate where
  url : Str
  area : Score
  deriving DecidableEq, Repr

/-- An `img[src]` element: its `src` property and its four dimensions. -/
structure Img where
  src : Str
  naturalWidth : ℕ
  width : ℕ
  naturalHeight : ℕ
  height : ℕ
  deriving DecidableEq, Repr

/-- What the injected function reads from the page. -/
structure Page where
  /-- The value of `location.href`. -/
  location : Str
  /-- The elements of `document.querySelectorAll("img[src]")`. -/
  imgs : List Img
  /-- The `srcset` attribute of each element of
  `document.querySelectorAll("source[srcset],img[srcset]")`. -/
  srcsets : List Str
  /-- The computed `backgroundImage` of each element of
  `document.querySelectorAll("*")`. -/
  backgrounds : List Str

/-- The helper `pushUrl(u, area)` acting on the array `urls`. -/
def pushUrl (api : UrlApi) (location : Str) (urls : List Candidate) (u : Str) (area : Score) :
    List Candidate :=
  if u = [] then urls
  else
    match api.parse u (some location) with
    | some r => urls ++ [⟨r.href, area⟩]
    | none => urls

/-- The callback of the first `forEach`: one plain image. -/
def pushImg (api : UrlApi) (location : Str) (urls : List Candidate) (img : Img) :
    List Candidate :=
  let area := mulNat (firstNonZero img.naturalWidth img.width)
    (firstNonZero img.naturalHeight img.height)
  pushUrl api location urls img.src area

/-- The score given to one `srcset` descriptor. -/
def descScore (desc : Str) : Score :=
  let score := Score.int 0
  let score := if endsWith desc 'w' then orZero (parseInt desc) else score
  let score := if endsWith desc 'x' then orZero (mathRound (mul1000 (parseFloat desc))) else score
  score

/-- The variable `best` of the `srcset` strategy. -/
structure Best where
  candUrl : Str
  score : Score
  deriving DecidableEq, Repr

/-- The callback of `set.split(",").forEach`: one comma-separated part. -/
def srcsetPart (best : Option Best) (part : Str) : Option Best :=
  let pieces := splitWs (trim part)
  match pieces.head? with
  | none => best
  | some candUrl =>
    if candUrl = [] then best
    else
      let desc := (pieces[1]?).getD []
      let score := descScore desc
      match best with
      | none => some ⟨candUrl, score⟩
      | some b => if score.gt b.score then some ⟨candUrl, score⟩ else some b

/-- The value of `best` after the loop over one `srcset` attribute. -/
def srcsetBest (set : Str) : Option Best :=
  (splitOn ',' set).foldl srcsetPart none

/-- The callback of the second `forEach`: one `srcset` attribute. -/
def pushSrcset (api : UrlApi) (location : Str) (urls : List Candidate) (set : Str) :
    List Candidate :=
  if set = [] then urls
  else
    match srcsetBest set with
    | some best => pushUrl api location urls best.candUrl best.score
    | none => urls

/-- Line terminators, which `.` does not match. -/
def isLineTerminator (c : Char) : Bool :=
  c.toNat == 0x0A || c.toNat == 0x0D || c.toNat == 0x2028 || c.toNat == 0x2029

/-- A single or double quote. -/
def isQuote (c : Char) : Bool := c.toNat == 0x22 || c.toNat == 0x27

/-- The first capture group of `/^url\(["']?(.*?)["']?\)$/i` on `s`, or `none`
when `s` does not match: after `url(` an opening quote is consumed when there
is one, the lazy group stops before a closing quote that precedes the final
`)`, and the group cannot hold a line terminator. -/
def matchUrl (s : Str) : Option Str :=
  match s with
  | u :: r :: l :: '(' :: rest =>
    if (u = 'u' ∨ u = 'U') ∧ (r = 'r' ∨ r = 'R') ∧ (l = 'l' ∨ l = 'L') then
      match rest.reverse with
      | ')' :: revBody =>
        let body := revBody.reverse
        let afterQuote :=
          match body with
          | q :: b => if isQuote q then b else body
          | [] => body
        let group :=
          match afterQuote.reverse with
          | q :: b => if isQuote q then b.reverse else afterQuote
          | [] => afterQuote
        if group.any isLineTerminator then none else some group
      | _ => none
    else none
  | _ => none

/-- The callback of `bg.split(",").forEach`: one background entry. -/
def pushBackgroundEntry (api : UrlApi) (location : Str) (urls : List Candidate) (entry : Str) :
    List Candidate :=
  match matchUrl (trim entry) with
  | some m1 => if m1 = [] then urls else pushUrl api location urls m1 (.int 0)
  | none => urls

/-- The callback of the third `forEach`: the computed background of one element. -/
def pushBackground (api : UrlApi) (location : Str) (urls : List Candidate) (bg : Str) :
    List Candidate :=
  if bg = [] ∨ bg = "none".toList then urls
  else (splitOn ',' bg).foldl (pushBackgroundEntry api location) urls

/-- The array `urls` after the three strategies have run. -/
def rawCandidates (api : UrlApi) (page : Page) : List Candidate :=
  let urls := page.imgs.foldl (pushImg api page.location) []
  let urls := page.srcsets.foldl (pushSrcset api page.location) urls
  page.backgrounds.foldl (pushBackground api page.location) urls

/-- The call `seen.get(url)` on a `Map` kept as its entries in insertion order. -/
def seenGet (seen : List (Str × Score)) (url : Str) : Option Score :=
  match seen with
  | [] => none
  | (k, v) :: rest => if k = url then some v else seenGet rest url

/-- The call `seen.set(url, area)`: an existing key keeps its place. -/
def seenSet (seen : List (Str × Score)) (url : Str) (area : Score) : List (Str × Score) :=
  match seen with
  | [] => [(url, area)]
  | (k, v) :: rest => if k = url then (k, area) :: rest else (k, v) :: seenSet rest url area

/-- The callback of `urls.forEach` that fills the map `seen`. -/
def seenStep (seen : List (Str × Score)) (c : Candidate) : List (Str × Score) :=
  match seenGet seen c.url with
  | none => seenSet seen c.url c.area
  | some old => if c.area.gt old then seenSet seen c.url c.area else seen

/-- The per-page deduplication: the map `seen` built from `urls`, returned as
`Array.from(seen.entries()).map(([url, area]) => ({ url, area }))`. -/
def dedup (urls : List Candidate) : List Candidate :=
  (urls.foldl seenStep []).map (fun e => ⟨e.1, e.2⟩)

/-- The injected function: the three strategies, then the deduplication. -/
def scan (api : UrlApi) (page : Page) : List Candidate :=
  dedup (rawCandidates api page)

/-! ## `makeFilename` -/

/-- The function `makeFilename`. -/
def makeFilename (api : UrlApi) (folder url : Str) (index : ℕ) : Str :=
  match api.parse url none with
  | some u =>
    let parts := (splitOn '/' u.pathname).filter (fun p => p ≠ [])
    let name :=
      match parts.getLast? with
      | some n => n
      | none => "image-".toList ++ Nat.toDigits 10 index
    let name := if !includes name '.' then name ++ ".png".toList else name
    folder ++ "/".toList ++ name
  | none => folder ++ "/image-".toList ++ Nat.toDigits 10 index ++ ".png".toList

/-! ## The download runs -/

/-- A browser tab as the program reads it; `url` may be absent. -/
structure Tab where
  id : ℕ
  url : Option Str
  deriving DecidableEq, Repr

/-- The browser around one run. -/
structure World where
  /-- The `URL` constructor. -/
  url : UrlApi
  /-- The result of `chrome.tabs.query({ currentWindow: true })`. -/
  windowTabs : List Tab
  /-- The outcome of `getFolder(tabId)`, which reads the stored folder or
  prompts for one in a tab; `none` is a rejection. -/
  getFolder : Option ℕ → Option Str
  /-- The outcome of injecting the scanner into a tab with
  `chrome.scripting.executeScript`: `none` is a rejection, `some none` a
  result without a value, `some (some l)` the list the injected function
  returned. -/
  executeScript : ℕ → Option (Option (List Candidate))
  /-- The outcome of the `n`-th call (counting from `0`) of
  `chrome.downloads.download({ url, filename, conflictAction })` in the run:
  the job identifier, or `none` for a rejection. -/
  download : ℕ → Str → Str → Option ℕ

/-- The function `queryWindowTabs`. -/
def queryWindowTabs (w : World) : List Tab :=
  w.windowTabs.filter (fun t => isAllowedUrl w.url t.url)

/-- The function `collectImages`; `none` means the returned promise rejects. -/
def collectImages (w : World) (tabId : ℕ) (url : Option Str) : Option (List Candidate) :=
  if !isAllowedUrl w.url url then some []
  else
    match w.executeScript tabId with
    | none => none
    | some result => some (result.getD [])

/-- One request handed to the download service by `downloadWithName`. -/
structure Submission where
  url : Str
  filename : Str
  deriving DecidableEq, Repr

/-- The variables of a run: the set `seen` (used by `downloadAll` only),
`counter`, `firstDownloadId`, and the requests submitted so far. -/
structure RunState where
  seen : List Str
  counter : ℕ
  firstDownloadId : Option ℕ
  submitted : List Submission
  deriving DecidableEq, Repr

/-- The `try` block around `downloadWithName(url, makeFilename(folder, url, counter++))`. -/
def submit (w : World) (folder : Str) (st : RunState) (url : Str) : RunState :=
  let filename := makeFilename w.url folder url st.counter
  let st1 : RunState :=
    { st with counter := st.counter + 1, submitted := st.submitted ++ [⟨url, filename⟩] }
  match w.download st.submitted.length url filename with
  | some id =>
    match st1.firstDownloadId with
    | none => { st1 with firstDownloadId := some id }
    | some _ => st1
  | none => st1

/-- The body of `for (const item of imgs)` in `downloadAll`. -/
def downloadAllItem (w : World) (folder : Str) (st : RunState) (item : Candidate) : RunState :=
  if st.seen.contains item.url then st
  else submit w folder { st with seen := st.seen ++ [item.url] } item.url

/-- The body of `for (const tab of tabs)` in `downloadAll`. -/
def downloadAllTab (w : World) (folder : Str) (st : RunState) (tab : Tab) : RunState :=
  match collectImages w tab.id tab.url with
  | none => st
  | some imgs => imgs.foldl (downloadAllItem w folder) st

/-- What a completed run did: the requests submitted, in order, and the job
passed to `chrome.downloads.show`, if any. -/
structure Run where
  submitted : List Submission
  revealed : Option ℕ
  deriving DecidableEq, Repr

/-- The state at the start of the loop over the tabs. -/
def initialState : RunState := ⟨[], 1, none, []⟩

/-- The function `downloadAll`; `none` means the returned promise rejects. -/
def downloadAll (w : World) : Option Run :=
  let tabs := queryWindowTabs w
  if tabs = [] then some ⟨[], none⟩
  else
    match w.getFolder (tabs.head?.map Tab.id) with
    | none => none
    | some folder =>
      let st := tabs.foldl (downloadAllTab w folder) initialState
      some ⟨st.submitted, st.firstDownloadId⟩

/-- The call `imgs.reduce((a, b) => (b.area > a.area ? b : a), imgs[0])`. -/
def reduceBest (first : Candidate) (imgs : List Candidate) : Candidate :=
  imgs.foldl (fun a b => if b.area.gt a.area then b else a) first

/-- The body of `for (const tab of tabs)` in `downloadLargestPerTab`. -/
def downloadLargestTab (w : World) (folder : Str) (st : RunState) (tab : Tab) : RunState :=
  match collectImages w tab.id tab.url with
  | none => st
  | some [] => st
  | some (first :: rest) => submit w folder st (reduceBest first (first :: rest)).url

/-- The function `downloadLargestPerTab`; `none` means the returned promise rejects. -/
def downloadLargestPerTab (w : World) : Option Run :=
  let tabs := queryWindowTabs w
  if tabs = [] then some ⟨[], none⟩
  else
    match w.getFolder (tabs.head?.map Tab.id) with
    | none => none
    | some folder =>
      let st := tabs.foldl (downloadLargestTab w folder) initialState
      some ⟨st.submitted, st.firstDownloadId⟩

/-- The two run commands of the message listener. -/
inductive Command where
  | download
  | downloadLargest
  deriving DecidableEq, Repr

/-- The object passed to `sendResponse` for a run command. -/
structure Response where
  ok : Bool
  deriving DecidableEq, Repr

/-- The `chrome.runtime.onMessage` listener on a run command: the response
sent once the run has completed; `none` when the run rejects, in which case
`sendResponse` is never reached. -/
def onMessage (w : World) : Command → Option Response
  | .download => (downloadAll w).map (fun _ => ⟨true⟩)
  | .downloadLargest => (downloadLargestPerTab w).map (fun _ => ⟨true⟩)

/-! ## A model of the `URL` constructor on plain inputs

The parser of the platform is a parameter of everything above.  The concrete
examples below run on `plainUrl`, which follows the URL Standard on inputs that
need no normalisation: an absolute URL `scheme://host/path` with a special
scheme and a non-empty host, an absolute URL `scheme:rest` with any other
scheme (kept as written, as the standard does for `data:` and `javascript:`),
and a path written relative to such a special base.  Inputs with credentials,
ports, queries, fragments, dot segments, escapes, an empty host (as in
`file:///`) or a leading `//` are outside its domain, and it is evaluated on
none of them. -/

/-- Characters allowed in a scheme after its first letter. -/
def isSchemeChar (c : Char) : Bool := c.isAlphanum || c == '+' || c == '-' || c == '.'

/-- The scheme of `s`, in lower case, and what follows its colon. -/
def splitScheme (s : Str) : Option (Str × Str) :=
  match s with
  | c :: _ =>
    if c.isAlpha then
      match s.dropWhile isSchemeChar with
      | ':' :: rest => some ((s.takeWhile isSchemeChar).map Char.toLower, rest)
      | _ => none
    else none
  | [] => none

/-- The special schemes of the URL Standard. -/
def specialSchemes : List Str :=
  ["ftp".toList, "file".toList, "http".toList, "https".toList, "ws".toList, "wss".toList]

/-- An input that carries its own scheme. -/
def parseAbsolute (input : Str) : Option Url :=
  match splitScheme input with
  | none => none
  | some (scheme, rest) =>
    if specialSchemes.contains scheme then
      match rest with
      | '/' :: '/' :: r =>
        let host := r.takeWhile (fun c => c != '/')
        let path := r.dropWhile (fun c => c != '/')
        if host = [] then none
        else
          let path := if path = [] then ['/'] else path
          some ⟨scheme ++ "://".toList ++ host ++ path, scheme ++ [':'], path⟩
      | _ => none
    else some ⟨scheme ++ [':'] ++ rest, scheme ++ [':'], rest⟩

/-- A path up to and including its last slash. -/
def directoryOf (path : Str) : Str := (path.reverse.dropWhile (fun c => c != '/')).reverse

/-- The model `plainUrl` as a function. -/
def plainParse (input : Str) (base : Option Str) : Option Url :=
  match splitScheme input with
  | some _ => parseAbsolute input
  | none =>
    match base.bind parseAbsolute with
    | none => none
    | some b =>
      if specialSchemes.contains (b.protocol.dropLast) then
        let origin := b.href.take (b.href.length - b.pathname.length)
        match input with
        | [] => some b
        | '/' :: _ => some ⟨origin ++ input, b.protocol, input⟩
        | _ => some ⟨origin ++ directoryOf b.pathname ++ input, b.protocol,
            directoryOf b.pathname ++ input⟩
      else none

/-- The `URL` constructor on plain inputs. -/
def plainUrl : UrlApi := ⟨plainParse⟩

/-! ## The order of scores -/

instance : LE Score := ⟨fun a b => a.gt b = false⟩

instance : LT Score := ⟨fun a b => b.gt a = true⟩

instance : DecidableRel (fun a b : Score => a ≤ b) := fun a b =>
  inferInstanceAs (Decidable (a.gt b = false))

instance : DecidableRel (fun a b : Score => a < b) := fun a b =>
  inferInstanceAs (Decidable (b.gt a = true))

/-! ## Definitions used to state the properties -/

/-- The invariant of the loop that fills `seen`, after the candidates `done`. -/
structure SeenInv (seen : List (Str × Score)) (done : List Candidate) : Prop where
  nodup : (seen.map Prod.fst).Nodup
  keys : ∀ u, u ∈ seen.map Prod.fst ↔ u ∈ done.map Candidate.url
  best : ∀ e ∈ seen, (⟨e.1, e.2⟩ : Candidate) ∈ done ∧
    ∀ r ∈ done, r.url = e.1 → r.area ≤ e.2


/-- A list of URLs with every repeat of an earlier URL removed: the head is
kept, and its copies are dropped from what is kept of the tail. -/
def removeRepeats : List Str → List Str
  | [] => []
  | u :: us => u :: (removeRepeats us).filter (fun v => v != u)

/-- The candidate URLs of the admissible tabs of a run, tab after tab; a tab
whose scan fails contributes none. -/
def scannedUrls (w : World) : List Str :=
  ((queryWindowTabs w).map fun t =>
    match collectImages w t.id t.url with
    | some imgs => imgs.map Candidate.url
    | none => []).flatten

/-- How many of the submitted requests are for the URL `u`. -/
def timesSubmitted (u : Str) (run : Run) : ℕ :=
  (run.submitted.filter (fun s => decide (s.url = u))).length

/-- The first element of `l`, in encounter order, whose score is the maximum
of the scores in `l`. -/
def firstMaxOn {α : Type} (score : α → Score) (l : List α) : Option α :=
  l.find? (fun c => decide (∀ x ∈ l, score x ≤ score c))

/-- The first candidate of `l`, in encounter order, whose score is the maximum
of the scores in `l`. -/
def firstMax (l : List Candidate) : Option Candidate := firstMaxOn Candidate.area l

/-- The score rule that the code follows, written as one cascade: a
descriptor whose last character is `w` scores the integer that `parseInt`
reads at its head, a descriptor whose last character is `x` scores
`Math.round` of `1000` times the number that `parseFloat` reads at its head,
and the score is `0` when the descriptor ends in neither character or when no
number can be read there. -/
def descriptorScore (desc : Str) : Score :=
  if endsWith desc 'w' then (parseInt desc).getD (.int 0)
  else if endsWith desc 'x' then (mathRound (mul1000 (parseFloat desc))).getD (.int 0)
  else .int 0

/-- A non-empty string of decimal digits. -/
def isDigits (s : Str) : Bool := !s.isEmpty && s.all isDigit

/-- The score `round(N * 1000)` of the decimal number `N = n / d`, computed as
the platform does: `N` as a double, the product as a double, then rounded. -/
def densityScore (n d : ℕ) : Score :=
  (mathRound (mul1000 (F64.ofMag false (roundRatio n d)))).getD (.int 0)

/-- The score of a `srcset` descriptor read strictly: `N` when the descriptor
is a decimal integer `N` followed by `w`, `round(N * 1000)` when it is a
decimal number `N` (digits, or digits, a dot and digits) followed by `x`, and
`0` for any other descriptor. -/
def strictScore (desc : Str) : Score :=
  match desc.getLast? with
  | none => .int 0
  | some c =>
    let n := desc.dropLast
    if c = 'w' then
      if isDigits n then magToScore false (roundRatio (digitsValue n) 1) else .int 0
    else if c = 'x' then
      match splitOn '.' n with
      | [a] => if isDigits a then densityScore (digitsValue a) 1 else .int 0
      | [a, b] =>
        if isDigits a && isDigits b then densityScore (digitsValue (a ++ b)) (10 ^ b.length)
        else .int 0
      | _ => .int 0
    else .int 0

/-- The entry of one comma-separated part of a `srcset` value under the strict
reading of descriptors; `none` when the URL is empty. -/
def strictEntry (part : Str) : Option Best :=
  match splitWs (trim part) with
  | url :: rest => if url = [] then none else some ⟨url, strictScore (rest.headD [])⟩
  | [] => none

/-- The entries of a `srcset` value under the strict reading of descriptors. -/
def strictEntries (set : Str) : List Best := (splitOn ',' set).filterMap strictEntry

/-- The entry of one comma-separated part of a `srcset` value, split on white
space: its URL and the score of its descriptor under the rule of
`descriptorScore`; `none` when the URL is empty. -/
def srcsetEntry (part : Str) : Option Best :=
  match splitWs (trim part) with
  | url :: rest => if url = [] then none else some ⟨url, descriptorScore (rest.headD [])⟩
  | [] => none

/-- The entries of a `srcset` value that have a non-empty URL, in order. -/
def srcsetEntries (set : Str) : List Best := (splitOn ',' set).filterMap srcsetEntry

/-- The world `w`, except that the scanner injected into the tab `tabId`
returns an empty list. -/
def World.withEmptyScan (w : World) (tabId : ℕ) : World :=
  { w with executeScript := fun i => if i = tabId then some (some []) else w.executeScript i }

/-- The world `w` with the download service `d`. -/
def World.withDownload (w : World) (d : ℕ → Str → Str → Option ℕ) : World :=
  { w with download := d }

/-- Two run states that differ at most in `firstDownloadId`. -/
def RunState.Agree (a b : RunState) : Prop :=
  a.seen = b.seen ∧ a.counter = b.counter ∧ a.submitted = b.submitted

/-- The best-pick loop of the `srcset` strategy, seen as a step on one entry:
the entry replaces `best` when there is none yet or when it scores more. -/
def pickStep (best : Option Best) (e : Best) : Option Best :=
  match best with
  | none => some e
  | some b => if e.score.gt b.score then some e else some b

/-- The last non-empty segment of a path: what follows the last slash once the
trailing slashes are dropped; `none` when the path holds nothing but slashes. -/
def lastSegment (path : Str) : Option Str :=
  let kept := path.reverse.dropWhile (fun c => c == '/')
  if kept = [] then none else some (kept.takeWhile (fun c => c != '/')).reverse

/-- The base name of the file that `makeFilename` is specified to choose. -/
def baseName (api : UrlApi) (url : Str) (index : ℕ) : Str :=
  match api.parse url none with
  | none => "image-".toList ++ Nat.toDigits 10 index ++ ".png".toList
  | some u =>
    match lastSegment u.pathname with
    | none => "image-".toList ++ Nat.toDigits 10 index ++ ".png".toList
    | some s => if '.' ∈ s then s else s ++ ".png".toList

/-- The descriptor of one comma-separated part of a `srcset` value: its second
piece, or the empty string. -/
def descriptorOf (part : Str) : Str := ((splitWs (trim part))[1]?).getD []

/-- The sign bit of a double; `NaN` counts as unsigned. -/
def F64.isNeg : F64 → Bool
  | .nan => false
  | .inf neg => neg
  | .fin neg _ _ => neg

/-- What `pushUrl` records for the source `u`: its form resolved against the
page location, unless `u` is empty or the resolution fails. -/
def resolved (api : UrlApi) (location : Str) (u : Str) : Option Str :=
  if u = [] then none else (api.parse u (some location)).map Url.href

/-- The source that the `srcset` strategy passes to `pushUrl` for one attribute. -/
def srcsetSources (set : Str) : List Str :=
  if set = [] then [] else ((srcsetBest set).map Best.candUrl).toList

/-- The sources that the background strategy passes to `pushUrl` for one
computed `backgroundImage`. -/
def backgroundSources (bg : Str) : List Str :=
  if bg = [] ∨ bg = "none".toList then []
  else (splitOn ',' bg).filterMap (fun entry => matchUrl (trim entry))

/-- The sources that the three strategies pass to `pushUrl`, in order. -/
def sources (page : Page) : List Str :=
  page.imgs.map Img.src ++ (page.srcsets.map srcsetSources).flatten ++
    (page.backgrounds.map backgroundSources).flatten

/-! ### Example pages -/

/-- A page at `https://x.test/` with one image whose source is a `data:` URL. -/
def dataImagePage : Page where
  location := "https://x.test/".toList
  imgs := [⟨"data:image/png;base64,AAAA".toList, 1, 1, 1, 1⟩]
  srcsets := []
  backgrounds := []

/-- A page at `https://x.test/` with one `srcset` whose only entry has a
negative width descriptor. -/
def negativeWidthPage : Page where
  location := "https://x.test/".toList
  imgs := []
  srcsets := ["a.jpg -5w".toList]
  backgrounds := []

/-- A page at `https://x.test/gallery/` with a sized image, a `srcset` and two
CSS backgrounds, one of which repeats the image. -/
def galleryPage : Page where
  location := "https://x.test/gallery/".toList
  imgs := [⟨"https://x.test/gallery/a.jpg".toList, 640, 320, 480, 240⟩]
  srcsets := ["b.jpg 400w, c.jpg 2x".toList]
  backgrounds := ["none".toList, [],
    "url(\"https://x.test/gallery/a.jpg\"), url(\"https://x.test/bg.png\")".toList]

/-! ### Example runs -/

/-- A candidate with an integer score. -/
def cand (url : String) (score : ℤ) : Candidate := ⟨url.toList, .int score⟩

/-- A tab showing the page `url`. -/
def tabAt (id : ℕ) (url : String) : Tab := ⟨id, some url.toList⟩

/-- Two tabs that both expose `https://cdn.test/a.jpg`. -/
def twoTabsSameImage : World where
  url := plainUrl
  windowTabs := [tabAt 1 "https://one.test/", tabAt 2 "https://two.test/gallery"]
  getFolder := fun _ => some "AllTabsImages".toList
  executeScript := fun id =>
    if id = 1 then some (some [cand "https://cdn.test/a.jpg" 100, cand "https://one.test/logo" 0])
    else some (some [cand "https://cdn.test/b.png" 4, cand "https://cdn.test/a.jpg" 2500])
  download := fun n _ _ => some (n + 10)

/-- One tab whose candidates are scored `100`, `50` and `900`. -/
def oneTabThreeScores : World where
  url := plainUrl
  windowTabs := [tabAt 7 "https://one.test/"]
  getFolder := fun _ => some "AllTabsImages".toList
  executeScript := fun _ =>
    some (some [cand "https://cdn.test/small.jpg" 100, cand "https://cdn.test/icon.png" 50,
      cand "https://cdn.test/large.jpg" 900])
  download := fun n _ _ => some (n + 10)

/-- Three tabs; the injection into the second one is rejected, and the
download service rejects the first request. -/
def secondTabFails : World where
  url := plainUrl
  windowTabs := [tabAt 1 "https://one.test/", tabAt 2 "https://two.test/",
    tabAt 3 "https://three.test/"]
  getFolder := fun _ => some "AllTabsImages".toList
  executeScript := fun id =>
    if id = 1 then some (some [cand "https://cdn.test/a.jpg" 100, cand "https://cdn.test/b.jpg" 7])
    else if id = 2 then none
    else some (some [cand "https://cdn.test/c.png" 900])
  download := fun n _ _ => if n = 0 then none else some (n + 10)

/-! ## Facts about the order of scores -/

theorem Score.le_iff (a b : Score) : a ≤ b ↔ a.gt b = false := Iff.rfl

theorem Score.lt_iff (a b : Score) : a < b ↔ b.gt a = true := Iff.rfl

theorem Score.le_refl (a : Score) : a ≤ a := by
  cases a <;> simp [Score.le_iff, Score.gt]

theorem Score.le_trans {a b c : Score} (h₁ : a ≤ b) (h₂ : b ≤ c) : a ≤ c := by
  cases a <;> cases b <;> cases c
  all_goals simp_all [Score.le_iff, Score.gt]
  all_goals omega

theorem Score.le_of_lt {a b : Score} (h : a < b) : a ≤ b := by
  cases a <;> cases b
  all_goals simp_all [Score.le_iff, Score.lt_iff, Score.gt]
  all_goals omega

theorem Score.le_total (a b : Score) : a ≤ b ∨ b ≤ a := by
  cases a <;> cases b
  all_goals simp [Score.le_iff, Score.gt]
  all_goals omega

theorem Score.le_antisymm {a b : Score} (h₁ : a ≤ b) (h₂ : b ≤ a) : a = b := by
  cases a <;> cases b
  all_goals simp_all [Score.le_iff, Score.gt]
  all_goals omega

theorem Score.lt_of_le_of_lt {a b c : Score} (h₁ : a ≤ b) (h₂ : b < c) : a < c := by
  cases a <;> cases b <;> cases c
  all_goals simp_all [Score.le_iff, Score.lt_iff, Score.gt]
  all_goals omega

theorem Score.lt_trans {a b c : Score} (h₁ : a < b) (h₂ : b < c) : a < c :=
  Score.lt_of_le_of_lt (Score.le_of_lt h₁) h₂

theorem Score.lt_iff_not_le (a b : Score) : a < b ↔ ¬ b ≤ a := by
  simp [Score.le_iff, Score.lt_iff]

/-! ## Facts about the map `seen` -/

theorem seenGet_eq_none {seen : List (Str × Score)} {u : Str} :
    seenGet seen u = none ↔ u ∉ seen.map Prod.fst := by
  induction seen with
  | nil => simp [seenGet]
  | cons e rest ih =>
    obtain ⟨k, v⟩ := e
    by_cases h : k = u
    · simp only [seenGet, h, if_true, List.map_cons, List.mem_cons, true_or, not_true_eq_false]
      simp
    · simp only [seenGet, h, if_false, ih, List.map_cons, List.mem_cons, not_or]
      exact ⟨fun hx => ⟨Ne.symm h, hx⟩, fun hx => hx.2⟩

theorem seenGet_some_mem {seen : List (Str × Score)} {u : Str} {v : Score}
    (h : seenGet seen u = some v) : (u, v) ∈ seen := by
  induction seen with
  | nil => simp [seenGet] at h
  | cons e rest ih =>
    obtain ⟨k, w⟩ := e
    by_cases hk : k = u
    · simp [seenGet, hk] at h
      simp [hk, h]
    · simp [seenGet, hk] at h
      simp [ih h]

theorem seenSet_of_get_none {seen : List (Str × Score)} {u : Str} (a : Score)
    (h : seenGet seen u = none) : seenSet seen u a = seen ++ [(u, a)] := by
  induction seen with
  | nil => simp [seenSet]
  | cons e rest ih =>
    obtain ⟨k, w⟩ := e
    by_cases hk : k = u
    · simp [seenGet, hk] at h
    · simp [seenGet, hk] at h
      simp [seenSet, hk, ih h]

theorem seenSet_keys_of_mem {seen : List (Str × Score)} {u : Str} (a : Score)
    (h : u ∈ seen.map Prod.fst) : (seenSet seen u a).map Prod.fst = seen.map Prod.fst := by
  induction seen with
  | nil => simp at h
  | cons e rest ih =>
    obtain ⟨k, w⟩ := e
    by_cases hk : k = u
    · simp [seenSet, hk]
    · have : u ∈ rest.map Prod.fst := by
        simp only [List.map_cons, List.mem_cons] at h
        rcases h with h | h
        · exact absurd h.symm hk
        · exact h
      simp [seenSet, hk, ih this]

theorem mem_seenSet_of_nodup {seen : List (Str × Score)} {u : Str} (a : Score)
    (hn : (seen.map Prod.fst).Nodup) (h : u ∈ seen.map Prod.fst) (e : Str × Score) :
    e ∈ seenSet seen u a ↔ e = (u, a) ∨ (e ∈ seen ∧ e.1 ≠ u) := by
  induction seen with
  | nil => simp at h
  | cons x rest ih =>
    obtain ⟨k, w⟩ := x
    simp only [List.map_cons, List.nodup_cons] at hn
    by_cases hk : k = u
    · subst hk
      simp only [seenSet, if_true, List.mem_cons]
      constructor
      · rintro (h1 | h1)
        · exact Or.inl h1
        · refine Or.inr ⟨Or.inr h1, ?_⟩
          intro he
          exact hn.1 (he ▸ List.mem_map_of_mem Prod.fst h1)
      · rintro (h1 | ⟨h1 | h1, h2⟩)
        · exact Or.inl h1
        · exact absurd (by rw [h1]) h2
        · exact Or.inr h1
    · have hu : u ∈ rest.map Prod.fst := by
        simp only [List.map_cons, List.mem_cons] at h
        rcases h with h | h
        · exact absurd h.symm hk
        · exact h
      simp only [seenSet, hk, if_false, List.mem_cons, ih hn.2 hu]
      constructor
      · rintro (h1 | h1 | h1)
        · refine Or.inr ⟨Or.inl h1, ?_⟩
          rw [h1]; exact hk
        · exact Or.inl h1
        · exact Or.inr ⟨Or.inr h1.1, h1.2⟩
      · rintro (h1 | ⟨h1 | h1, h2⟩)
        · exact Or.inr (Or.inl h1)
        · exact Or.inl h1
        · exact Or.inr (Or.inr ⟨h1, h2⟩)

theorem eq_of_same_key {l : List (Str × Score)} {u : Str} {v w : Score}
    (hl : (l.map Prod.fst).Nodup) (h1 : (u, v) ∈ l) (h2 : (u, w) ∈ l) : v = w := by
  induction l with
  | nil => simp at h1
  | cons x xs ih =>
    simp only [List.map_cons, List.nodup_cons] at hl
    rcases List.mem_cons.1 h1 with h1 | h1 <;> rcases List.mem_cons.1 h2 with h2 | h2
    · rw [← h1] at h2; exact (Prod.mk.inj h2).2.symm
    · exact absurd (List.mem_map_of_mem Prod.fst h2) (by rw [← h1] at hl; exact hl.1)
    · exact absurd (List.mem_map_of_mem Prod.fst h1) (by rw [← h2] at hl; exact hl.1)
    · exact ih hl.2 h1 h2

theorem SeenInv.step {seen : List (Str × Score)} {done : List Candidate}
    (inv : SeenInv seen done) (c : Candidate) : SeenInv (seenStep seen c) (done ++ [c]) := by
  unfold seenStep
  cases hget : seenGet seen c.url with
  | none =>
    have hnot := seenGet_eq_none.1 hget
    simp only [seenSet_of_get_none c.area hget]
    refine ⟨?_, ?_, ?_⟩
    · rw [List.map_append, List.nodup_append]
      refine ⟨inv.nodup, by simp, ?_⟩
      intro a ha hb
      simp only [List.map_cons, List.map_nil, List.mem_singleton] at hb
      exact hnot (hb ▸ ha)
    · intro u
      simp [inv.keys u]
    · intro e he
      rw [List.mem_append, List.mem_singleton] at he
      rcases he with he | he
      · obtain ⟨h1, h2⟩ := inv.best e he
        refine ⟨List.mem_append_left _ h1, ?_⟩
        intro r hr hru
        rw [List.mem_append, List.mem_singleton] at hr
        rcases hr with hr | hr
        · exact h2 r hr hru
        · exfalso
          apply hnot
          have : e.1 ∈ seen.map Prod.fst := List.mem_map_of_mem Prod.fst he
          rw [← hr, hru]; exact this
      · subst he
        refine ⟨by simp, ?_⟩
        intro r hr hru
        rw [List.mem_append, List.mem_singleton] at hr
        rcases hr with hr | hr
        · exfalso
          apply hnot
          rw [inv.keys]
          simp only at hru
          rw [← hru]
          exact List.mem_map_of_mem Candidate.url hr
        · rw [hr]; exact Score.le_refl _
  | some old =>
    have hmem := seenGet_some_mem hget
    have hkey : c.url ∈ seen.map Prod.fst := List.mem_map_of_mem Prod.fst hmem
    obtain ⟨hold1, hold2⟩ := inv.best _ hmem
    simp only at hold1 hold2
    by_cases hgt : c.area.gt old = true
    · simp only [if_pos hgt]
      refine ⟨?_, ?_, ?_⟩
      · rw [seenSet_keys_of_mem _ hkey]; exact inv.nodup
      · intro u
        rw [seenSet_keys_of_mem _ hkey, inv.keys u]
        simp only [List.map_append, List.mem_append, List.map_cons, List.map_nil,
          List.mem_singleton]
        constructor
        · exact Or.inl
        · rintro (h | h)
          · exact h
          · rw [h, ← inv.keys]; exact hkey
      · intro e he
        rw [mem_seenSet_of_nodup _ inv.nodup hkey] at he
        rcases he with he | ⟨he, hne⟩
        · subst he
          refine ⟨by simp, ?_⟩
          intro r hr hru
          rw [List.mem_append, List.mem_singleton] at hr
          rcases hr with hr | hr
          · exact Score.le_trans (hold2 r hr hru) (Score.le_of_lt hgt)
          · rw [hr]; exact Score.le_refl _
        · obtain ⟨h1, h2⟩ := inv.best e he
          refine ⟨List.mem_append_left _ h1, ?_⟩
          intro r hr hru
          rw [List.mem_append, List.mem_singleton] at hr
          rcases hr with hr | hr
          · exact h2 r hr hru
          · exact absurd (hr ▸ hru).symm hne
    · have hle : c.area ≤ old := by
        rw [Score.le_iff]; simpa using hgt
      simp only [if_neg hgt]
      refine ⟨inv.nodup, ?_, ?_⟩
      · intro u
        rw [inv.keys u]
        simp only [List.map_append, List.mem_append, List.map_cons, List.map_nil,
          List.mem_singleton]
        constructor
        · exact Or.inl
        · rintro (h | h)
          · exact h
          · rw [h, ← inv.keys]; exact hkey
      · intro e he
        obtain ⟨h1, h2⟩ := inv.best e he
        refine ⟨List.mem_append_left _ h1, ?_⟩
        intro r hr hru
        rw [List.mem_append, List.mem_singleton] at hr
        rcases hr with hr | hr
        · exact h2 r hr hru
        · subst hr
          have : e = (r.url, old) := by
            obtain ⟨k, v⟩ := e
            simp only at hru
            subst hru
            rw [eq_of_same_key inv.nodup he hmem]
          rw [this]; exact hle

theorem SeenInv.foldl {l : List Candidate} {seen : List (Str × Score)} {done : List Candidate}
    (inv : SeenInv seen done) : SeenInv (l.foldl seenStep seen) (done ++ l) := by
  induction l generalizing seen done with
  | nil => simpa using inv
  | cons c cs ih =>
    have := ih (inv.step c)
    simpa using this

theorem seenInv_dedup (urls : List Candidate) : SeenInv (urls.foldl seenStep []) urls := by
  have h : SeenInv [] [] := ⟨by simp, by simp, by simp⟩
  simpa using h.foldl (l := urls)

theorem foldl_seenStep_of_fresh (l : List Candidate) (acc : List (Str × Score))
    (hl : (l.map Candidate.url).Nodup)
    (hd : ∀ c ∈ l, c.url ∉ acc.map Prod.fst) :
    l.foldl seenStep acc = acc ++ l.map (fun c => (c.url, c.area)) := by
  induction l generalizing acc with
  | nil => simp
  | cons c cs ih =>
    simp only [List.map_cons, List.nodup_cons] at hl
    have hget : seenGet acc c.url = none := seenGet_eq_none.2 (hd c (List.mem_cons_self _ _))
    have hstep : seenStep acc c = acc ++ [(c.url, c.area)] := by
      simp only [seenStep, hget, seenSet_of_get_none c.area hget]
    rw [List.foldl_cons, hstep, ih _ hl.2]
    · simp
    · intro x hx
      rw [List.map_append, List.mem_append, not_or]
      refine ⟨hd x (List.mem_cons_of_mem _ hx), ?_⟩
      simp only [List.map_cons, List.map_nil, List.mem_singleton]
      intro hxc
      exact hl.1 (hxc ▸ List.mem_map_of_mem Candidate.url hx)

theorem dedup_of_nodup (l : List Candidate) (hl : (l.map Candidate.url).Nodup) :
    dedup l = l := by
  unfold dedup
  rw [foldl_seenStep_of_fresh l [] hl (by simp)]
  simp [List.map_map, Function.comp_def]

theorem dedup_urls (urls : List Candidate) :
    (dedup urls).map Candidate.url = (urls.foldl seenStep []).map Prod.fst := by
  simp [dedup, List.map_map, Function.comp_def]

theorem mem_dedup {urls : List Candidate} {c : Candidate} :
    c ∈ dedup urls ↔ (c.url, c.area) ∈ urls.foldl seenStep [] := by
  unfold dedup
  constructor
  · intro h
    obtain ⟨e, he, hc⟩ := List.mem_map.1 h
    rw [← hc]; exact he
  · intro h
    exact List.mem_map.2 ⟨_, h, rfl⟩

/-! ## Facts about `downloadAll` -/

theorem mem_removeRepeats {l : List Str} {u : Str} : u ∈ removeRepeats l ↔ u ∈ l := by
  induction l with
  | nil => simp [removeRepeats]
  | cons x xs ih =>
    simp only [removeRepeats, List.mem_cons, List.mem_filter, ih, bne_iff_ne, ne_eq]
    constructor
    · rintro (h | h)
      · exact Or.inl h
      · exact Or.inr h.1
    · rintro (h | h)
      · exact Or.inl h
      · by_cases hx : u = x
        · exact Or.inl hx
        · exact Or.inr ⟨h, hx⟩

theorem nodup_removeRepeats (l : List Str) : (removeRepeats l).Nodup := by
  induction l with
  | nil => simp [removeRepeats]
  | cons x xs ih =>
    simp only [removeRepeats, List.nodup_cons, List.mem_filter, bne_iff_ne, ne_eq,
      not_true_eq_false, and_false, not_false_eq_true, true_and]
    exact ih.filter _

theorem removeRepeats_append (l₁ l₂ : List Str) :
    removeRepeats (l₁ ++ l₂) =
      removeRepeats l₁ ++ (removeRepeats l₂).filter (fun v => !l₁.contains v) := by
  induction l₁ with
  | nil => simp [removeRepeats]
  | cons x xs ih =>
    show removeRepeats (x :: (xs ++ l₂)) = _
    rw [removeRepeats, removeRepeats, ih, List.filter_append, List.filter_filter,
      List.cons_append]
    congr 2
    apply List.filter_congr
    intro v _
    by_cases hv : v = x
    · simp [hv]
    · simp [hv, List.contains_cons, Ne.symm hv]

theorem submit_seen (w : World) (folder : Str) (st : RunState) (u : Str) :
    (submit w folder st u).seen = st.seen := by
  unfold submit
  dsimp only
  split
  · split <;> rfl
  · rfl

theorem submit_submitted (w : World) (folder : Str) (st : RunState) (u : Str) :
    (submit w folder st u).submitted =
      st.submitted ++ [⟨u, makeFilename w.url folder u st.counter⟩] := by
  unfold submit
  dsimp only
  split
  · split <;> rfl
  · rfl

theorem downloadAllItem_fold (w : World) (folder : Str) (items : List Candidate)
    (st : RunState) :
    (items.foldl (downloadAllItem w folder) st).seen =
        st.seen ++ (removeRepeats (items.map Candidate.url)).filter
          (fun u => !st.seen.contains u) ∧
      (items.foldl (downloadAllItem w folder) st).submitted.map Submission.url =
        st.submitted.map Submission.url ++ (removeRepeats (items.map Candidate.url)).filter
          (fun u => !st.seen.contains u) := by
  induction items generalizing st with
  | nil => simp [removeRepeats]
  | cons c cs ih =>
    rw [List.foldl_cons]
    by_cases hm : c.url ∈ st.seen
    · have hc : st.seen.contains c.url = true := by simpa using hm
      have hstep : downloadAllItem w folder st c = st := by simp [downloadAllItem, hm]
      rw [hstep]
      have hfil : (removeRepeats ((c :: cs).map Candidate.url)).filter
          (fun u => !st.seen.contains u) =
          (removeRepeats (cs.map Candidate.url)).filter (fun u => !st.seen.contains u) := by
        simp only [List.map_cons, removeRepeats, List.filter_cons, hc, Bool.not_true,
          Bool.false_eq_true, if_false, List.filter_filter]
        apply List.filter_congr
        intro v _
        by_cases hv : v = c.url
        · simp [hv, hm]
        · simp [hv]
      rw [hfil]
      exact ih st
    · have hc' : st.seen.contains c.url = false := by simpa using hm
      have hstep : downloadAllItem w folder st c =
          submit w folder { st with seen := st.seen ++ [c.url] } c.url := by
        simp [downloadAllItem, hm]
      rw [hstep]
      obtain ⟨h1, h2⟩ := ih (submit w folder { st with seen := st.seen ++ [c.url] } c.url)
      rw [h1, h2, submit_seen, submit_submitted]
      have hfil : (removeRepeats ((c :: cs).map Candidate.url)).filter
          (fun u => !st.seen.contains u) =
          c.url :: (removeRepeats (cs.map Candidate.url)).filter
            (fun u => !(st.seen ++ [c.url]).contains u) := by
        simp only [List.map_cons, removeRepeats, List.filter_cons, hc', Bool.not_false,
          if_true, List.filter_filter, List.cons.injEq, true_and]
        apply List.filter_congr
        intro v _
        by_cases hv : v = c.url
        · simp [hv]
        · simp [hv]
      rw [hfil]
      simp

theorem downloadAllTab_fold (w : World) (folder : Str) (tabs : List Tab) (st : RunState) :
    let urls := (tabs.map fun t =>
      match collectImages w t.id t.url with
      | some imgs => imgs.map Candidate.url
      | none => []).flatten
    (tabs.foldl (downloadAllTab w folder) st).seen =
        st.seen ++ (removeRepeats urls).filter (fun u => !st.seen.contains u) ∧
      (tabs.foldl (downloadAllTab w folder) st).submitted.map Submission.url =
        st.submitted.map Submission.url ++
          (removeRepeats urls).filter (fun u => !st.seen.contains u) := by
  induction tabs generalizing st with
  | nil => simp [removeRepeats]
  | cons t ts ih =>
    intro urls
    have hfil : ∀ (l₁ l₂ S : List Str),
        (removeRepeats (l₁ ++ l₂)).filter (fun u => !S.contains u) =
          (removeRepeats l₁).filter (fun u => !S.contains u) ++
            (removeRepeats l₂).filter (fun u =>
              !(S ++ (removeRepeats l₁).filter (fun u => !S.contains u)).contains u) := by
      intro l₁ l₂ S
      rw [removeRepeats_append, List.filter_append, List.filter_filter]
      congr 1
      apply List.filter_congr
      intro v _
      by_cases h1 : v ∈ S <;> by_cases h2 : v ∈ l₁ <;>
        simp [h1, h2, List.mem_filter, mem_removeRepeats]
    rw [List.foldl_cons]
    obtain ⟨h1, h2⟩ := ih (downloadAllTab w folder st t)
    cases hscan : collectImages w t.id t.url with
    | none =>
      have hstep : downloadAllTab w folder st t = st := by simp [downloadAllTab, hscan]
      rw [hstep] at h1 h2 ⊢
      have hu : urls = (ts.map fun t =>
          match collectImages w t.id t.url with
          | some imgs => imgs.map Candidate.url
          | none => []).flatten := by
        simp [urls, hscan]
      rw [hu]
      exact ⟨h1, h2⟩
    | some imgs =>
      have hstep : downloadAllTab w folder st t = imgs.foldl (downloadAllItem w folder) st := by
        simp [downloadAllTab, hscan]
      obtain ⟨g1, g2⟩ := downloadAllItem_fold w folder imgs st
      rw [hstep] at h1 h2 ⊢
      have hu : urls = imgs.map Candidate.url ++ (ts.map fun t =>
          match collectImages w t.id t.url with
          | some imgs => imgs.map Candidate.url
          | none => []).flatten := by
        simp [urls, hscan]
      rw [hu, hfil, h1, h2, g1, g2]
      simp

theorem filter_length_le_one_of_nodup {l : List Submission} (u : Str)
    (h : (l.map Submission.url).Nodup) :
    (l.filter (fun s => decide (s.url = u))).length ≤ 1 := by
  induction l with
  | nil => simp
  | cons x xs ih =>
    simp only [List.map_cons, List.nodup_cons] at h
    by_cases hx : x.url = u
    · have hnone : xs.filter (fun s => decide (s.url = u)) = [] := by
        rw [List.filter_eq_nil_iff]
        intro s hs
        simp only [decide_eq_true_eq]
        intro hsu
        exact h.1 (List.mem_map.2 ⟨s, hs, by rw [hsu, hx]⟩)
      simp [List.filter_cons, hx, hnone]
    · simpa [List.filter_cons, hx] using ih h.2

theorem filter_length_pos_of_mem {l : List Submission} {u : Str}
    (h : u ∈ l.map Submission.url) :
    0 < (l.filter (fun s => decide (s.url = u))).length := by
  obtain ⟨s, hs, hsu⟩ := List.mem_map.1 h
  apply List.length_pos_of_mem (a := s)
  exact List.mem_filter.2 ⟨hs, by simpa using hsu⟩

/-! ## Facts about `downloadLargestPerTab` -/

theorem firstMaxOn_of_split {α : Type} (score : α → Score) {l pre post : List α} {c : α}
    (hl : l = pre ++ c :: post) (hpre : ∀ x ∈ pre, score x < score c)
    (hpost : ∀ x ∈ post, score x ≤ score c) : firstMaxOn score l = some c := by
  have hall : ∀ x ∈ l, score x ≤ score c := by
    intro x hx
    rw [hl, List.mem_append, List.mem_cons] at hx
    rcases hx with hx | hx | hx
    · exact Score.le_of_lt (hpre x hx)
    · rw [hx]; exact Score.le_refl _
    · exact hpost x hx
  have hc : c ∈ l := by rw [hl]; simp
  unfold firstMaxOn
  have hskip : ∀ (q : List α), (∀ x ∈ q, score x < score c) →
      (q ++ c :: post).find? (fun c => decide (∀ x ∈ l, score x ≤ score c)) = some c := by
    intro q hq
    induction q with
    | nil =>
      have hd : decide (∀ x ∈ l, score x ≤ score c) = true := decide_eq_true hall
      simp only [List.nil_append, List.find?_cons, hd]
    | cons y ys ih =>
      have hy : ¬ ∀ x ∈ l, score x ≤ score y := by
        intro h
        have h1 := h c hc
        have h2 := hq y (List.mem_cons_self _ _)
        exact (Score.lt_iff_not_le _ _).1 h2 h1
      simp only [List.cons_append, List.find?_cons, hy, decide_False]
      exact ih (fun x hx => hq x (List.mem_cons_of_mem _ hx))
  have := hskip pre hpre
  rw [← hl] at this
  exact this

theorem foldl_best_split {α : Type} (score : α → Score) (a : α) (l : List α) :
    ∃ pre post,
      a :: l = pre ++ (l.foldl (fun a b => if (score b).gt (score a) then b else a) a) :: post ∧
      (∀ x ∈ pre,
        score x < score (l.foldl (fun a b => if (score b).gt (score a) then b else a) a)) ∧
      (∀ x ∈ post,
        score x ≤ score (l.foldl (fun a b => if (score b).gt (score a) then b else a) a)) := by
  induction l using List.reverseRecOn with
  | nil => exact ⟨[], [], by simp⟩
  | append_singleton l b ih =>
    obtain ⟨pre, post, hsplit, hpre, hpost⟩ := ih
    rw [List.foldl_append, List.foldl_cons, List.foldl_nil]
    by_cases hgt : (score b).gt
        (score (l.foldl (fun a b => if (score b).gt (score a) then b else a) a)) = true
    · rw [if_pos hgt]
      refine ⟨a :: l, [], by simp, ?_, by simp⟩
      intro x hx
      rw [hsplit, List.mem_append, List.mem_cons] at hx
      rcases hx with hx | hx | hx
      · exact Score.lt_trans (hpre x hx) hgt
      · rw [hx]; exact hgt
      · exact Score.lt_of_le_of_lt (hpost x hx) hgt
    · rw [if_neg hgt]
      refine ⟨pre, post ++ [b], ?_, hpre, ?_⟩
      · rw [← List.cons_append, hsplit]; simp
      · intro x hx
        rw [List.mem_append, List.mem_singleton] at hx
        rcases hx with hx | hx
        · exact hpost x hx
        · rw [hx, Score.le_iff]; simpa using hgt

theorem foldl_best_eq_firstMaxOn {α : Type} (score : α → Score) (a : α) (l : List α) :
    firstMaxOn score (a :: l) =
      some (l.foldl (fun a b => if (score b).gt (score a) then b else a) a) := by
  obtain ⟨pre, post, hsplit, hpre, hpost⟩ := foldl_best_split score a l
  exact firstMaxOn_of_split score hsplit hpre hpost

theorem reduceBest_eq_firstMax (first : Candidate) (rest : List Candidate) :
    firstMax (first :: rest) = some (reduceBest first (first :: rest)) := by
  have h0 : reduceBest first (first :: rest) =
      rest.foldl (fun a b => if b.area.gt a.area then b else a) first := by
    have : first.area.gt first.area = false := Score.le_refl _
    simp [reduceBest, List.foldl_cons, this]
  rw [h0]
  exact foldl_best_eq_firstMaxOn Candidate.area first rest

theorem downloadLargestTab_fold (w : World) (folder : Str) (tabs : List Tab) (st : RunState) :
    (tabs.foldl (downloadLargestTab w folder) st).submitted.map Submission.url =
      st.submitted.map Submission.url ++ tabs.filterMap (fun t =>
        match collectImages w t.id t.url with
        | some imgs => (firstMax imgs).map Candidate.url
        | none => none) := by
  induction tabs generalizing st with
  | nil => simp
  | cons t ts ih =>
    rw [List.foldl_cons, ih]
    cases hscan : collectImages w t.id t.url with
    | none => simp [downloadLargestTab, hscan, List.filterMap_cons]
    | some imgs =>
      cases imgs with
      | nil => simp [downloadLargestTab, hscan, List.filterMap_cons, firstMax, firstMaxOn]
      | cons first rest =>
        simp [downloadLargestTab, hscan, List.filterMap_cons, submit_submitted,
          reduceBest_eq_firstMax]

/-! ## Facts about failures during a run -/

theorem submit_counter (w : World) (folder : Str) (st : RunState) (u : Str) :
    (submit w folder st u).counter = st.counter + 1 := by
  unfold submit
  dsimp only
  split
  · split <;> rfl
  · rfl

theorem collectImages_withEmptyScan (w : World) (tabId : ℕ) (t : Tab)
    (hfail : w.executeScript tabId = none) :
    collectImages (w.withEmptyScan tabId) t.id t.url = collectImages w t.id t.url ∨
      (collectImages w t.id t.url = none ∧
        collectImages (w.withEmptyScan tabId) t.id t.url = some []) := by
  unfold collectImages World.withEmptyScan
  by_cases ha : isAllowedUrl w.url t.url = true
  · by_cases hi : t.id = tabId
    · right
      simp [ha, hi, hfail]
    · left
      simp only [ha, hi, if_false, Bool.not_true, Bool.false_eq_true]
  · have ha' : isAllowedUrl w.url t.url = false := by simpa using ha
    left
    simp [ha']

theorem downloadAllTab_withEmptyScan (w : World) (tabId : ℕ) (folder : Str)
    (hfail : w.executeScript tabId = none) (st : RunState) (t : Tab) :
    downloadAllTab (w.withEmptyScan tabId) folder st t = downloadAllTab w folder st t := by
  have hsub : ∀ st u, submit (w.withEmptyScan tabId) folder st u = submit w folder st u :=
    fun _ _ => rfl
  have hitem : downloadAllItem (w.withEmptyScan tabId) folder = downloadAllItem w folder := by
    funext st c
    simp only [downloadAllItem, hsub]
  unfold downloadAllTab
  rcases collectImages_withEmptyScan w tabId t hfail with h | ⟨h1, h2⟩
  · rw [h, hitem]
  · rw [h1, h2]; rfl

theorem downloadLargestTab_withEmptyScan (w : World) (tabId : ℕ) (folder : Str)
    (hfail : w.executeScript tabId = none) (st : RunState) (t : Tab) :
    downloadLargestTab (w.withEmptyScan tabId) folder st t = downloadLargestTab w folder st t := by
  have hsub : ∀ st u, submit (w.withEmptyScan tabId) folder st u = submit w folder st u :=
    fun _ _ => rfl
  unfold downloadLargestTab
  rcases collectImages_withEmptyScan w tabId t hfail with h | ⟨h1, h2⟩
  · rw [h]
    simp only [hsub]
  · rw [h1, h2]

theorem executeScript_of_collectImages_none {w : World} {t : Tab}
    (h : collectImages w t.id t.url = none) : w.executeScript t.id = none := by
  unfold collectImages at h
  by_cases ha : isAllowedUrl w.url t.url = true
  · simp only [ha, Bool.not_true, Bool.false_eq_true, if_false] at h
    cases he : w.executeScript t.id with
    | none => rfl
    | some r => simp [he] at h
  · have ha' : isAllowedUrl w.url t.url = false := by simpa using ha
    simp [ha'] at h

theorem submit_agree (w : World) (d : ℕ → Str → Str → Option ℕ) (folder : Str)
    {a b : RunState} (h : a.Agree b) (u : Str) :
    (submit (w.withDownload d) folder a u).Agree (submit w folder b u) := by
  obtain ⟨h1, h2, h3⟩ := h
  refine ⟨?_, ?_, ?_⟩
  · rw [submit_seen, submit_seen, h1]
  · rw [submit_counter, submit_counter, h2]
  · rw [submit_submitted, submit_submitted, h2, h3]; rfl

theorem downloadAllItem_agree (w : World) (d : ℕ → Str → Str → Option ℕ) (folder : Str)
    {a b : RunState} (h : a.Agree b) (c : Candidate) :
    (downloadAllItem (w.withDownload d) folder a c).Agree (downloadAllItem w folder b c) := by
  unfold downloadAllItem
  rw [h.1]
  by_cases hc : b.seen.contains c.url = true
  · simp only [hc, if_true]; exact h
  · simp only [hc, if_false]
    apply submit_agree
    exact ⟨rfl, h.2.1, h.2.2⟩

theorem foldl_agree {α : Type} (f g : RunState → α → RunState)
    (hfg : ∀ a b x, a.Agree b → (f a x).Agree (g b x)) (l : List α) {a b : RunState}
    (h : a.Agree b) : (l.foldl f a).Agree (l.foldl g b) := by
  induction l generalizing a b with
  | nil => exact h
  | cons x xs ih => exact ih (hfg a b x h)

theorem downloadAllTab_agree (w : World) (d : ℕ → Str → Str → Option ℕ) (folder : Str)
    {a b : RunState} (h : a.Agree b) (t : Tab) :
    (downloadAllTab (w.withDownload d) folder a t).Agree (downloadAllTab w folder b t) := by
  unfold downloadAllTab
  have hc : collectImages (w.withDownload d) t.id t.url = collectImages w t.id t.url := rfl
  rw [hc]
  cases collectImages w t.id t.url with
  | none => exact h
  | some imgs =>
    exact foldl_agree _ _ (fun a b x hab => downloadAllItem_agree w d folder hab x) imgs h

theorem downloadLargestTab_agree (w : World) (d : ℕ → Str → Str → Option ℕ) (folder : Str)
    {a b : RunState} (h : a.Agree b) (t : Tab) :
    (downloadLargestTab (w.withDownload d) folder a t).Agree
      (downloadLargestTab w folder b t) := by
  unfold downloadLargestTab
  have hc : collectImages (w.withDownload d) t.id t.url = collectImages w t.id t.url := rfl
  rw [hc]
  cases collectImages w t.id t.url with
  | none => exact h
  | some imgs =>
    cases imgs with
    | nil => exact h
    | cons first rest => exact submit_agree w d folder h _

theorem downloadAll_withDownload (w : World) (d : ℕ → Str → Str → Option ℕ) :
    (downloadAll (w.withDownload d)).map Run.submitted = (downloadAll w).map Run.submitted := by
  unfold downloadAll
  have hq : queryWindowTabs (w.withDownload d) = queryWindowTabs w := rfl
  have hg : (w.withDownload d).getFolder = w.getFolder := rfl
  rw [hq, hg]
  by_cases ht : queryWindowTabs w = []
  · simp [ht]
  · simp only [ht, if_false]
    cases w.getFolder ((queryWindowTabs w).head?.map Tab.id) with
    | none => rfl
    | some folder =>
      have := foldl_agree _ _ (fun a b x hab => downloadAllTab_agree w d folder hab x)
        (queryWindowTabs w) (a := initialState) (b := initialState) ⟨rfl, rfl, rfl⟩
      simp [this.2.2]

theorem downloadLargestPerTab_withDownload (w : World) (d : ℕ → Str → Str → Option ℕ) :
    (downloadLargestPerTab (w.withDownload d)).map Run.submitted =
      (downloadLargestPerTab w).map Run.submitted := by
  unfold downloadLargestPerTab
  have hq : queryWindowTabs (w.withDownload d) = queryWindowTabs w := rfl
  have hg : (w.withDownload d).getFolder = w.getFolder := rfl
  rw [hq, hg]
  by_cases ht : queryWindowTabs w = []
  · simp [ht]
  · simp only [ht, if_false]
    cases w.getFolder ((queryWindowTabs w).head?.map Tab.id) with
    | none => rfl
    | some folder =>
      have := foldl_agree _ _ (fun a b x hab => downloadLargestTab_agree w d folder hab x)
        (queryWindowTabs w) (a := initialState) (b := initialState) ⟨rfl, rfl, rfl⟩
      simp [this.2.2]

theorem downloadAll_withEmptyScan (w : World) (tabId : ℕ)
    (hfail : w.executeScript tabId = none) :
    downloadAll (w.withEmptyScan tabId) = downloadAll w := by
  unfold downloadAll
  have hq : queryWindowTabs (w.withEmptyScan tabId) = queryWindowTabs w := rfl
  have hg : (w.withEmptyScan tabId).getFolder = w.getFolder := rfl
  have hf : ∀ folder, downloadAllTab (w.withEmptyScan tabId) folder = downloadAllTab w folder := by
    intro folder
    funext st t
    exact downloadAllTab_withEmptyScan w tabId folder hfail st t
  simp only [hq, hg, hf]

theorem downloadLargestPerTab_withEmptyScan (w : World) (tabId : ℕ)
    (hfail : w.executeScript tabId = none) :
    downloadLargestPerTab (w.withEmptyScan tabId) = downloadLargestPerTab w := by
  unfold downloadLargestPerTab
  have hq : queryWindowTabs (w.withEmptyScan tabId) = queryWindowTabs w := rfl
  have hg : (w.withEmptyScan tabId).getFolder = w.getFolder := rfl
  have hf : ∀ folder,
      downloadLargestTab (w.withEmptyScan tabId) folder = downloadLargestTab w folder := by
    intro folder
    funext st t
    exact downloadLargestTab_withEmptyScan w tabId folder hfail st t
  simp only [hq, hg, hf]

/-! ## Facts about the `srcset` strategy -/

theorem endsWith_unique {s : Str} {c d : Char} (hc : endsWith s c = true) (hd : endsWith s d = true) :
    c = d := by
  unfold endsWith at hc hd
  cases h : s.getLast? with
  | none => simp [h] at hc
  | some x =>
    simp only [h, beq_iff_eq, Option.some.injEq] at hc hd
    rw [← hc, ← hd]

theorem orZero_eq_getD (x : Option Score) : orZero x = x.getD (.int 0) := by
  cases x with
  | none => rfl
  | some s =>
    by_cases h : s = .int 0
    · simp [orZero, h]
    · simp [orZero, h]

theorem descScore_eq_descriptorScore (desc : Str) : descScore desc = descriptorScore desc := by
  unfold descScore descriptorScore
  by_cases hw : endsWith desc 'w' = true
  · have hx : endsWith desc 'x' = false := by
      cases h : endsWith desc 'x' with
      | false => rfl
      | true => exact absurd (endsWith_unique hw h) (by decide)
    simp [hw, hx, orZero_eq_getD]
  · have hw' : endsWith desc 'w' = false := by simpa using hw
    by_cases hx : endsWith desc 'x' = true
    · simp [hw', hx, orZero_eq_getD]
    · have hx' : endsWith desc 'x' = false := by simpa using hx
      simp [hw', hx']

theorem srcsetPart_eq (best : Option Best) (part : Str) :
    srcsetPart best part =
      match srcsetEntry part with
      | none => best
      | some e => pickStep best e := by
  unfold srcsetPart srcsetEntry
  cases hp : splitWs (trim part) with
  | nil => simp
  | cons url rest =>
    by_cases hu : url = []
    · simp [hu]
    · have hd : ((url :: rest)[1]?).getD [] = rest.headD [] := by
        cases rest <;> simp
      simp only [List.head?_cons, hu, if_false, hd, descScore_eq_descriptorScore]
      cases best <;> rfl

theorem foldl_srcsetPart (parts : List Str) (best : Option Best) :
    parts.foldl srcsetPart best = (parts.filterMap srcsetEntry).foldl pickStep best := by
  induction parts generalizing best with
  | nil => rfl
  | cons p ps ih =>
    rw [List.foldl_cons, ih, srcsetPart_eq]
    cases he : srcsetEntry p with
    | none => simp [List.filterMap_cons, he]
    | some e => simp [List.filterMap_cons, he]

theorem foldl_pickStep_some (es : List Best) (b : Best) :
    es.foldl pickStep (some b) =
      some (es.foldl (fun a b => if b.score.gt a.score then b else a) b) := by
  induction es generalizing b with
  | nil => rfl
  | cons e es ih =>
    rw [List.foldl_cons, List.foldl_cons]
    by_cases h : e.score.gt b.score = true
    · simp only [pickStep, h, if_true]; exact ih e
    · simp only [pickStep, h, if_false]; exact ih b

theorem srcsetBest_eq_firstMaxOn (set : Str) :
    srcsetBest set = firstMaxOn Best.score (srcsetEntries set) := by
  unfold srcsetBest srcsetEntries
  rw [foldl_srcsetPart]
  cases (splitOn ',' set).filterMap srcsetEntry with
  | nil => rfl
  | cons e es =>
    rw [List.foldl_cons]
    show es.foldl pickStep (some e) = _
    rw [foldl_pickStep_some, foldl_best_eq_firstMaxOn]

/-! ## Facts about `makeFilename` -/

theorem splitOn_ne_nil (sep : Char) (s : Str) : splitOn sep s ≠ [] := by
  cases s with
  | nil => simp [splitOn]
  | cons c cs =>
    unfold splitOn
    split
    · simp
    · split <;> simp

theorem splitOn_of_not_mem {sep : Char} {s : Str} (h : sep ∉ s) : splitOn sep s = [s] := by
  induction s with
  | nil => rfl
  | cons c cs ih =>
    simp only [List.mem_cons, not_or] at h
    have hc : ¬ c = sep := fun e => h.1 e.symm
    simp only [splitOn, hc, if_false, ih h.2]

theorem splitOn_cons (sep c : Char) (cs : Str) :
    splitOn sep (c :: cs) =
      if c = sep then [] :: splitOn sep cs
      else
        match splitOn sep cs with
        | [] => [[c]]
        | p :: ps => (c :: p) :: ps := by
  rw [splitOn]

theorem splitOn_append_sep (sep : Char) (a b : Str) :
    splitOn sep (a ++ sep :: b) = splitOn sep a ++ splitOn sep b := by
  induction a with
  | nil => simp [splitOn_cons, splitOn]
  | cons c cs ih =>
    rw [List.cons_append, splitOn_cons, splitOn_cons, ih]
    by_cases hc : c = sep
    · simp only [hc, if_true, List.cons_append]
    · simp only [hc, if_false]
      cases h : splitOn sep cs with
      | nil => exact absurd h (splitOn_ne_nil sep cs)
      | cons p ps => simp

theorem exists_last_sep (sep : Char) (p : Str) :
    sep ∉ p ∨ ∃ a b, p = a ++ sep :: b ∧ sep ∉ b := by
  induction p with
  | nil => left; simp
  | cons c cs ih =>
    rcases ih with h | ⟨a, b, hab, hb⟩
    · by_cases hc : c = sep
      · right; exact ⟨[], cs, by simp [hc], h⟩
      · left
        simp only [List.mem_cons, not_or]
        exact ⟨fun e => hc e.symm, h⟩
    · right; exact ⟨c :: a, b, by simp [hab], hb⟩

theorem dropWhile_eq_self_of_head {p : Char → Bool} {c : Char} {l : List Char}
    (h : p c = false) : (c :: l).dropWhile p = c :: l := by
  simp [List.dropWhile_cons, h]

theorem takeWhile_append_stop {p : Char → Bool} (l : List Char) (c : Char) (m : List Char)
    (hl : ∀ x ∈ l, p x = true) (hc : p c = false) : (l ++ c :: m).takeWhile p = l := by
  induction l with
  | nil => simp [List.takeWhile_cons, hc]
  | cons x xs ih =>
    have hx : p x = true := hl x (List.mem_cons_self _ _)
    simp only [List.cons_append, List.takeWhile_cons, hx, if_true]
    rw [ih (fun y hy => hl y (List.mem_cons_of_mem _ hy))]

theorem takeWhile_all {p : Char → Bool} (l : List Char) (hl : ∀ x ∈ l, p x = true) :
    l.takeWhile p = l := by
  induction l with
  | nil => rfl
  | cons x xs ih =>
    have hx : p x = true := hl x (List.mem_cons_self _ _)
    simp only [List.takeWhile_cons, hx, if_true]
    rw [ih (fun y hy => hl y (List.mem_cons_of_mem _ hy))]

theorem lastSegment_of_not_mem {s : Str} (h : '/' ∉ s) :
    lastSegment s = if s = [] then none else some s := by
  unfold lastSegment
  by_cases hs : s = []
  · simp [hs]
  · have hrev : s.reverse ≠ [] := by simpa using hs
    obtain ⟨c, l, hcl⟩ := List.exists_cons_of_ne_nil hrev
    have hmem : ∀ x ∈ s.reverse, (x != '/') = true := by
      intro x hx
      rw [List.mem_reverse] at hx
      simp only [bne_iff_ne, ne_eq]
      intro e
      exact h (e ▸ hx)
    have hc : (c == '/') = false := by
      have := hmem c (by rw [hcl]; exact List.mem_cons_self _ _)
      simpa using this
    have hdrop : s.reverse.dropWhile (fun c => c == '/') = s.reverse := by
      rw [hcl]; exact dropWhile_eq_self_of_head hc
    simp only [hdrop, hrev, if_false, hs, takeWhile_all _ hmem, List.reverse_reverse]

theorem lastSegment_append_sep (a b : Str) (hb : '/' ∉ b) :
    lastSegment (a ++ '/' :: b) = if b = [] then lastSegment a else some b := by
  by_cases hbn : b = []
  · subst hbn
    simp only [if_true]
    unfold lastSegment
    simp [List.dropWhile_cons]
  · simp only [hbn, if_false]
    unfold lastSegment
    have hrev : b.reverse ≠ [] := by simpa using hbn
    obtain ⟨c, l, hcl⟩ := List.exists_cons_of_ne_nil hrev
    have hmem : ∀ x ∈ b.reverse, (x != '/') = true := by
      intro x hx
      rw [List.mem_reverse] at hx
      simp only [bne_iff_ne, ne_eq]
      intro e
      exact hb (e ▸ hx)
    have hc : (c == '/') = false := by
      have := hmem c (by rw [hcl]; exact List.mem_cons_self _ _)
      simpa using this
    have hr : (a ++ '/' :: b).reverse = b.reverse ++ '/' :: a.reverse := by simp
    have hdrop : (b.reverse ++ '/' :: a.reverse).dropWhile (fun c => c == '/') =
        b.reverse ++ '/' :: a.reverse := by
      rw [hcl, List.cons_append]; exact dropWhile_eq_self_of_head hc
    have hne : b.reverse ++ '/' :: a.reverse ≠ [] := by simp
    simp only [hr, hdrop, hne, if_false]
    rw [takeWhile_append_stop _ _ _ hmem (by simp), List.reverse_reverse]

theorem getLast?_filter_splitOn (p : Str) :
    ((splitOn '/' p).filter (fun s => s ≠ [])).getLast? = lastSegment p := by
  generalize h : p.length = n
  induction n using Nat.strong_induction_on generalizing p with
  | _ n ih =>
    rcases exists_last_sep '/' p with hno | ⟨a, b, hab, hb⟩
    · rw [splitOn_of_not_mem hno, lastSegment_of_not_mem hno]
      by_cases hp : p = []
      · simp [hp]
      · simp [hp]
    · rw [hab, splitOn_append_sep, splitOn_of_not_mem hb, lastSegment_append_sep a b hb,
        List.filter_append]
      by_cases hbn : b = []
      · simp only [hbn, if_true]
        have hlen : a.length < n := by
          rw [← h, hab, hbn]; simp
        have := ih a.length hlen a rfl
        simpa using this
      · simp [hbn]

theorem digitChar_ne_dot (k : ℕ) (hk : k < 10) : Nat.digitChar k ≠ '.' := by
  interval_cases k <;> decide

theorem toDigitsCore_no_dot (fuel n : ℕ) (ds : List Char) (hds : '.' ∉ ds) :
    '.' ∉ Nat.toDigitsCore 10 fuel n ds := by
  induction fuel generalizing n ds with
  | zero => simpa [Nat.toDigitsCore] using hds
  | succ f ih =>
    have hcons : '.' ∉ Nat.digitChar (n % 10) :: ds := by
      simp only [List.mem_cons, not_or]
      exact ⟨fun e => digitChar_ne_dot _ (Nat.mod_lt _ (by decide)) e.symm, hds⟩
    unfold Nat.toDigitsCore
    dsimp only
    split
    · exact hcons
    · exact ih _ _ hcons

theorem toDigits_no_dot (n : ℕ) : '.' ∉ Nat.toDigits 10 n :=
  toDigitsCore_no_dot _ _ _ (by simp)

theorem makeFilename_eq (api : UrlApi) (folder url : Str) (index : ℕ) :
    makeFilename api folder url index = folder ++ "/".toList ++ baseName api url index := by
  unfold makeFilename baseName
  cases api.parse url none with
  | none => simp
  | some u =>
    simp only [getLast?_filter_splitOn]
    cases lastSegment u.pathname with
    | none =>
      have hdot : '.' ∉ "image-".toList ++ Nat.toDigits 10 index := by
        rw [List.mem_append, not_or]
        exact ⟨by decide, toDigits_no_dot index⟩
      have hinc : includes ("image-".toList ++ Nat.toDigits 10 index) '.' = false := by
        unfold includes
        cases hcon : ("image-".toList ++ Nat.toDigits 10 index).contains '.' with
        | false => rfl
        | true => exact absurd (by simpa using hcon) hdot
      simp only [hinc, Bool.not_false, if_true, List.append_assoc]
    | some s =>
      by_cases hs : '.' ∈ s
      · simp [includes, hs]
      · simp [includes, hs]

theorem downloadAll_isSome (w : World) (folder : Str)
    (hfolder : w.getFolder ((queryWindowTabs w).head?.map Tab.id) = some folder) :
    ∃ run, downloadAll w = some run := by
  unfold downloadAll
  by_cases ht : queryWindowTabs w = []
  · simp only [ht, if_true]; exact ⟨_, rfl⟩
  · simp only [ht, if_false, hfolder]; exact ⟨_, rfl⟩

theorem downloadLargestPerTab_isSome (w : World) (folder : Str)
    (hfolder : w.getFolder ((queryWindowTabs w).head?.map Tab.id) = some folder) :
    ∃ run, downloadLargestPerTab w = some run := by
  unfold downloadLargestPerTab
  by_cases ht : queryWindowTabs w = []
  · simp only [ht, if_true]; exact ⟨_, rfl⟩
  · simp only [ht, if_false, hfolder]; exact ⟨_, rfl⟩

/-! ## Facts about numbers -/

theorem bitLenAux_zero (fuel : ℕ) : bitLenAux fuel 0 = 0 := by
  cases fuel <;> simp [bitLenAux]

theorem bitLenAux_spec (fuel n : ℕ) (h : n ≤ fuel) :
    n < 2 ^ bitLenAux fuel n ∧ (0 < n → 2 ^ (bitLenAux fuel n - 1) ≤ n) := by
  induction fuel generalizing n with
  | zero =>
    have : n = 0 := by omega
    subst this
    simp [bitLenAux]
  | succ f ih =>
    by_cases hn : n = 0
    · subst hn
      simp [bitLenAux]
    · have hstep : bitLenAux (f + 1) n = bitLenAux f (n / 2) + 1 := by
        simp [bitLenAux, hn]
      rw [hstep]
      have hle : n / 2 ≤ f := by omega
      obtain ⟨h1, h2⟩ := ih (n / 2) hle
      constructor
      · rw [pow_succ]; omega
      · intro _
        rw [Nat.add_sub_cancel]
        by_cases hh : n / 2 = 0
        · rw [hh, bitLenAux_zero]
          simp
          omega
        · have h3 := h2 (by omega)
          have hL : 1 ≤ bitLenAux f (n / 2) := by
            by_contra hc
            have h0 : bitLenAux f (n / 2) = 0 := by omega
            rw [h0] at h1
            simp at h1
            exact hh h1
          have hpow : 2 ^ bitLenAux f (n / 2) = 2 ^ (bitLenAux f (n / 2) - 1) * 2 := by
            rw [← pow_succ, Nat.sub_add_cancel hL]
          omega

theorem lt_pow_bitLen (n : ℕ) : n < 2 ^ bitLen n := (bitLenAux_spec n n (Nat.le_refl _)).1

theorem pow_bitLen_le (n : ℕ) (h : 0 < n) : 2 ^ (bitLen n - 1) ≤ n :=
  (bitLenAux_spec n n (Nat.le_refl _)).2 h

theorem binade_le_of_lt (q d : ℕ) (hd : 0 < d) (hq0 : 0 < q) (hq : q < 2 ^ 53) :
    binade (q * d) d ≤ 52 := by
  have hn : 0 < q * d := Nat.mul_pos hq0 hd
  have h1 := pow_bitLen_le (q * d) hn
  have h2 := lt_pow_bitLen d
  have h3 : q * d < 2 ^ 53 * 2 ^ bitLen d := by
    calc q * d < 2 ^ 53 * d := Nat.mul_lt_mul_of_pos_right hq hd
      _ ≤ 2 ^ 53 * 2 ^ bitLen d := Nat.mul_le_mul_left _ (Nat.le_of_lt h2)
  have h4 : 2 ^ (bitLen (q * d) - 1) < 2 ^ (53 + bitLen d) := by
    rw [pow_add]; exact lt_of_le_of_lt h1 h3
  have h5 : bitLen (q * d) - 1 < 53 + bitLen d := (Nat.pow_lt_pow_iff_right (by decide)).1 h4
  unfold binade
  dsimp only
  by_cases hk : (bitLen (q * d) : ℤ) - (bitLen d : ℤ) = 53
  · have hk0 : (0 : ℤ) ≤ (bitLen (q * d) : ℤ) - (bitLen d : ℤ) := by omega
    have hlt : q * d < d * 2 ^ ((bitLen (q * d) : ℤ) - (bitLen d : ℤ)).toNat := by
      rw [hk]
      calc q * d < 2 ^ 53 * d := Nat.mul_lt_mul_of_pos_right hq hd
        _ = d * 2 ^ (53 : ℤ).toNat := by rw [Nat.mul_comm]; rfl
    rw [if_pos hk0, if_pos hlt]
    omega
  · split_ifs <;> omega

theorem roundEvenDiv_mul (a d : ℕ) (hd : 0 < d) : roundEvenDiv (a * d) d = a := by
  unfold roundEvenDiv
  simp [Nat.mul_div_cancel _ hd, hd]

theorem roundAt_exact (q d : ℕ) (hd : 0 < d) (p : ℤ) (hp : p ≤ 0) :
    roundAt (q * d) d p = some (q * 2 ^ (-p).toNat, p) := by
  unfold roundAt
  dsimp only
  have hover : ¬ (971 < p ∨ (p = 971 ∧ 2 ^ 53 ≤
      (if 0 ≤ p then roundEvenDiv (q * d) (d * 2 ^ p.toNat)
        else roundEvenDiv (q * d * 2 ^ (-p).toNat) d))) := by
    rintro (h | ⟨h, _⟩) <;> omega
  rw [if_neg hover]
  by_cases h0 : 0 ≤ p
  · have hp0 : p = 0 := by omega
    subst hp0
    simp [roundEvenDiv_mul q d hd]
  · rw [if_neg h0]
    have : q * d * 2 ^ (-p).toNat = q * 2 ^ (-p).toNat * d := by ring
    rw [this, roundEvenDiv_mul _ d hd]

theorem roundRatio_exact (q d : ℕ) (hd : 0 < d) (hq : q < 2 ^ 53) :
    ∃ p : ℤ, p ≤ 0 ∧ roundRatio (q * d) d = some (q * 2 ^ (-p).toNat, p) := by
  by_cases hq0 : q = 0
  · exact ⟨0, le_refl _, by simp [roundRatio, hq0]⟩
  · have hn : q * d ≠ 0 := Nat.mul_ne_zero hq0 (by omega)
    have hb := binade_le_of_lt q d hd (by omega) hq
    refine ⟨max (binade (q * d) d) (-1022) - 52, by omega, ?_⟩
    unfold roundRatio
    rw [if_neg hn]
    exact roundAt_exact q d hd _ (by omega)

theorem magToScore_exact (q : ℕ) (p : ℤ) (hp : p ≤ 0) :
    magToScore false (some (q * 2 ^ (-p).toNat, p)) = .int q := by
  unfold magToScore signed
  by_cases h0 : 0 ≤ p
  · have hp0 : p = 0 := by omega
    subst hp0
    simp
  · simp only [h0, if_false, Bool.false_eq_true]
    rw [Nat.mul_div_cancel _ (by positivity)]

theorem mathRound_exact (q : ℕ) (p : ℤ) (hp : p ≤ 0) :
    mathRound (.fin false (q * 2 ^ (-p).toNat) p) = some (.int q) := by
  unfold mathRound
  by_cases h0 : 0 ≤ p
  · have hp0 : p = 0 := by omega
    subst hp0
    simp
  · simp only [h0, if_false, Bool.false_eq_true, Option.some.injEq, Score.int.injEq]
    have hpos : (0 : ℤ) < 2 ^ (-p).toNat := by positivity
    have hrw : (2 * ((q * 2 ^ (-p).toNat : ℕ) : ℤ) + 2 ^ (-p).toNat) =
        2 ^ (-p).toNat + (q : ℤ) * (2 * 2 ^ (-p).toNat) := by
      push_cast; ring
    rw [hrw, Int.add_mul_ediv_right _ _ (by omega), Int.ediv_eq_zero_of_lt (by omega) (by omega)]
    simp

theorem mul1000_exact (q : ℕ) (p : ℤ) (hp : p ≤ 0) (hq : 1000 * q < 2 ^ 53) :
    ∃ p' : ℤ, p' ≤ 0 ∧
      mul1000 (.fin false (q * 2 ^ (-p).toNat) p) =
        .fin false (1000 * q * 2 ^ (-p').toNat) p' := by
  unfold mul1000
  by_cases h0 : 0 ≤ p
  · have hp0 : p = 0 := by omega
    subst hp0
    obtain ⟨p', hp', h⟩ := roundRatio_exact (1000 * q) 1 (by decide) hq
    refine ⟨p', hp', ?_⟩
    have harg : 1000 * (q * 2 ^ (-(0 : ℤ)).toNat) * 2 ^ (0 : ℤ).toNat = 1000 * q * 1 := by simp
    simp only [le_refl, if_true, harg, h, F64.ofMag]
  · obtain ⟨p', hp', h⟩ := roundRatio_exact (1000 * q) (2 ^ (-p).toNat) (by positivity) hq
    refine ⟨p', hp', ?_⟩
    have harg : 1000 * (q * 2 ^ (-p).toNat) = 1000 * q * 2 ^ (-p).toNat := by ring
    simp only [h0, if_false, harg, h, F64.ofMag]

/-! ### Reading a digit string -/

theorem isDigit_bounds {c : Char} (h : isDigit c = true) : 48 ≤ c.toNat ∧ c.toNat ≤ 57 := by
  simpa [isDigit] using h

theorem isWhiteSpace_of_isDigit {c : Char} (h : isDigit c = true) : isWhiteSpace c = false := by
  obtain ⟨h1, h2⟩ := isDigit_bounds h
  unfold isWhiteSpace
  simp only [Bool.or_eq_false_iff, Bool.and_eq_false_iff, beq_eq_false_iff_ne, ne_eq,
    decide_eq_false_iff_not]
  omega

theorem takeSign_of_isDigit {c : Char} (rest : Str) (h : isDigit c = true) :
    takeSign (c :: rest) = (false, c :: rest) := by
  unfold takeSign
  split
  · next r heq =>
    have : c = '-' := by injection heq
    subst this
    exact absurd h (by decide)
  · next r heq =>
    have : c = '+' := by injection heq
    subst this
    exact absurd h (by decide)
  · rfl

theorem dropWhile_append_stop {p : Char → Bool} (l : List Char) (c : Char) (m : List Char)
    (hl : ∀ x ∈ l, p x = true) (hc : p c = false) : (l ++ c :: m).dropWhile p = c :: m := by
  induction l with
  | nil => simp [List.dropWhile_cons, hc]
  | cons x xs ih =>
    have hx : p x = true := hl x (List.mem_cons_self _ _)
    simp only [List.cons_append, List.dropWhile_cons, hx, if_true]
    exact ih (fun y hy => hl y (List.mem_cons_of_mem _ hy))

theorem parseInt_digits (ds : Str) (t : Char) (hne : ds ≠ []) (hds : ∀ c ∈ ds, isDigit c = true)
    (ht : isDigit t = false) (hv : digitsValue ds < 2 ^ 53) :
    parseInt (ds ++ [t]) = some (.int (digitsValue ds)) := by
  obtain ⟨d0, rest, hcons⟩ := List.exists_cons_of_ne_nil hne
  have hd0 : isDigit d0 = true := hds d0 (by rw [hcons]; exact List.mem_cons_self _ _)
  have htrim : trimStart (ds ++ [t]) = ds ++ [t] := by
    unfold trimStart
    rw [hcons, List.cons_append]
    exact dropWhile_eq_self_of_head (isWhiteSpace_of_isDigit hd0)
  have hsign : takeSign (ds ++ [t]) = (false, ds ++ [t]) := by
    rw [hcons, List.cons_append]
    exact takeSign_of_isDigit _ hd0
  have htake : (ds ++ [t]).takeWhile isDigit = ds := takeWhile_append_stop ds t [] hds ht
  obtain ⟨p, hp, hround⟩ := roundRatio_exact (digitsValue ds) 1 (by decide) hv
  rw [Nat.mul_one] at hround
  unfold parseInt
  simp only [htrim, hsign, htake, hne, if_false, hround, magToScore_exact _ p hp]

theorem parseFloat_digits (ds : Str) (hne : ds ≠ []) (hds : ∀ c ∈ ds, isDigit c = true)
    (hv : digitsValue ds < 2 ^ 53) :
    ∃ p : ℤ, p ≤ 0 ∧
      parseFloat (ds ++ ['x']) = .fin false (digitsValue ds * 2 ^ (-p).toNat) p := by
  obtain ⟨d0, rest, hcons⟩ := List.exists_cons_of_ne_nil hne
  have hd0 : isDigit d0 = true := hds d0 (by rw [hcons]; exact List.mem_cons_self _ _)
  have htrim : trimStart (ds ++ ['x']) = ds ++ ['x'] := by
    unfold trimStart
    rw [hcons, List.cons_append]
    exact dropWhile_eq_self_of_head (isWhiteSpace_of_isDigit hd0)
  have hsign : takeSign (ds ++ ['x']) = (false, ds ++ ['x']) := by
    rw [hcons, List.cons_append]
    exact takeSign_of_isDigit _ hd0
  have htake : (ds ++ ['x']).takeWhile isDigit = ds :=
    takeWhile_append_stop ds 'x' [] hds (by decide)
  have hdrop : (ds ++ ['x']).dropWhile isDigit = ['x'] :=
    dropWhile_append_stop ds 'x' [] hds (by decide)
  have hinf : "Infinity".toList.isPrefixOf (ds ++ ['x']) = false := by
    rw [hcons, List.cons_append]
    have hne : ('I' == d0) = false := by
      cases hI : ('I' == d0) with
      | false => rfl
      | true =>
        have : d0 = 'I' := (beq_iff_eq.1 hI).symm
        subst this
        exact absurd hd0 (by decide)
    show List.isPrefixOf ('I' :: "nfinity".toList) (d0 :: (rest ++ ['x'])) = false
    simp [List.isPrefixOf, hne]
  obtain ⟨p, hp, hround⟩ := roundRatio_exact (digitsValue ds) 1 (by decide) hv
  rw [Nat.mul_one] at hround
  refine ⟨p, hp, ?_⟩
  unfold parseFloat
  simp only [htrim, hsign, hinf, htake, hdrop, hne, false_and, if_false,
    List.append_nil, exponentPart, List.length_nil, Bool.false_eq_true]
  simp [hround, F64.ofMag]

theorem endsWith_append_singleton (ds : Str) (t c : Char) :
    endsWith (ds ++ [t]) c = (t == c) := by
  simp [endsWith]

theorem descriptorScore_width (ds : Str) (hne : ds ≠ []) (hds : ∀ c ∈ ds, isDigit c = true)
    (hv : digitsValue ds < 2 ^ 53) :
    descriptorScore (ds ++ ['w']) = .int (digitsValue ds) := by
  unfold descriptorScore
  rw [endsWith_append_singleton, parseInt_digits ds 'w' hne hds (by decide) hv]
  simp

theorem descriptorScore_density (ds : Str) (hne : ds ≠ []) (hds : ∀ c ∈ ds, isDigit c = true)
    (hv : 1000 * digitsValue ds < 2 ^ 53) :
    descriptorScore (ds ++ ['x']) = .int (1000 * digitsValue ds) := by
  obtain ⟨p, hp, hparse⟩ := parseFloat_digits ds hne hds (by omega)
  obtain ⟨p', hp', hmul⟩ := mul1000_exact (digitsValue ds) p hp hv
  unfold descriptorScore
  rw [endsWith_append_singleton, endsWith_append_singleton, hparse, hmul,
    mathRound_exact _ p' hp']
  have h1 : ('x' == 'w') = false := by decide
  simp [h1]

theorem parseInt_digits_eq (ds : Str) (t : Char) (hne : ds ≠ [])
    (hds : ∀ c ∈ ds, isDigit c = true) (ht : isDigit t = false) :
    parseInt (ds ++ [t]) = some (magToScore false (roundRatio (digitsValue ds) 1)) := by
  obtain ⟨d0, rest, hcons⟩ := List.exists_cons_of_ne_nil hne
  have hd0 : isDigit d0 = true := hds d0 (by rw [hcons]; exact List.mem_cons_self _ _)
  have htrim : trimStart (ds ++ [t]) = ds ++ [t] := by
    unfold trimStart
    rw [hcons, List.cons_append]
    exact dropWhile_eq_self_of_head (isWhiteSpace_of_isDigit hd0)
  have hsign : takeSign (ds ++ [t]) = (false, ds ++ [t]) := by
    rw [hcons, List.cons_append]
    exact takeSign_of_isDigit _ hd0
  have htake : (ds ++ [t]).takeWhile isDigit = ds := takeWhile_append_stop ds t [] hds ht
  unfold parseInt
  simp only [htrim, hsign, htake, hne, if_false]

theorem parseFloat_digits_eq (ds : Str) (hne : ds ≠ []) (hds : ∀ c ∈ ds, isDigit c = true) :
    parseFloat (ds ++ ['x']) = F64.ofMag false (roundRatio (digitsValue ds) 1) := by
  obtain ⟨d0, rest, hcons⟩ := List.exists_cons_of_ne_nil hne
  have hd0 : isDigit d0 = true := hds d0 (by rw [hcons]; exact List.mem_cons_self _ _)
  have htrim : trimStart (ds ++ ['x']) = ds ++ ['x'] := by
    unfold trimStart
    rw [hcons, List.cons_append]
    exact dropWhile_eq_self_of_head (isWhiteSpace_of_isDigit hd0)
  have hsign : takeSign (ds ++ ['x']) = (false, ds ++ ['x']) := by
    rw [hcons, List.cons_append]
    exact takeSign_of_isDigit _ hd0
  have htake : (ds ++ ['x']).takeWhile isDigit = ds :=
    takeWhile_append_stop ds 'x' [] hds (by decide)
  have hdrop : (ds ++ ['x']).dropWhile isDigit = ['x'] :=
    dropWhile_append_stop ds 'x' [] hds (by decide)
  have hinf : "Infinity".toList.isPrefixOf (ds ++ ['x']) = false := by
    rw [hcons, List.cons_append]
    have hne : ('I' == d0) = false := by
      cases hI : ('I' == d0) with
      | false => rfl
      | true =>
        have : d0 = 'I' := (beq_iff_eq.1 hI).symm
        subst this
        exact absurd hd0 (by decide)
    show List.isPrefixOf ('I' :: "nfinity".toList) (d0 :: (rest ++ ['x'])) = false
    simp [List.isPrefixOf, hne]
  unfold parseFloat
  simp only [htrim, hsign, hinf, htake, hdrop, hne, false_and, if_false,
    List.append_nil, exponentPart, List.length_nil, Bool.false_eq_true]
  simp

theorem isDigits_of_forall {ds : Str} (hne : ds ≠ []) (hds : ∀ c ∈ ds, isDigit c = true) :
    isDigits ds = true := by
  unfold isDigits
  have h1 : ds.isEmpty = false := by
    cases ds with
    | nil => exact absurd rfl hne
    | cons c cs => rfl
  have h2 : ds.all isDigit = true := List.all_eq_true.2 hds
  simp [h1, h2]

theorem dot_not_mem_of_digits {ds : Str} (hds : ∀ c ∈ ds, isDigit c = true) : '.' ∉ ds := by
  intro h
  exact absurd (hds '.' h) (by decide)

theorem strictScore_width (ds : Str) (hne : ds ≠ []) (hds : ∀ c ∈ ds, isDigit c = true) :
    strictScore (ds ++ ['w']) = magToScore false (roundRatio (digitsValue ds) 1) := by
  unfold strictScore
  simp [List.getLast?_append, List.dropLast_concat, isDigits_of_forall hne hds]

theorem strictScore_density (ds : Str) (hne : ds ≠ []) (hds : ∀ c ∈ ds, isDigit c = true) :
    strictScore (ds ++ ['x']) = densityScore (digitsValue ds) 1 := by
  unfold strictScore
  have h1 : ('x' : Char) ≠ 'w' := by decide
  simp [List.getLast?_append, List.dropLast_concat, h1,
    splitOn_of_not_mem (dot_not_mem_of_digits hds), isDigits_of_forall hne hds]

theorem descriptorScore_eq_strictScore_width (ds : Str) (hne : ds ≠ [])
    (hds : ∀ c ∈ ds, isDigit c = true) :
    descriptorScore (ds ++ ['w']) = strictScore (ds ++ ['w']) := by
  rw [strictScore_width ds hne hds]
  unfold descriptorScore
  rw [endsWith_append_singleton, parseInt_digits_eq ds 'w' hne hds (by decide)]
  simp

theorem descriptorScore_eq_strictScore_density (ds : Str) (hne : ds ≠ [])
    (hds : ∀ c ∈ ds, isDigit c = true) :
    descriptorScore (ds ++ ['x']) = strictScore (ds ++ ['x']) := by
  rw [strictScore_density ds hne hds]
  unfold descriptorScore densityScore
  rw [endsWith_append_singleton, endsWith_append_singleton, parseFloat_digits_eq ds hne hds]
  have h1 : ('x' == 'w') = false := by decide
  simp [h1]

theorem srcsetEntry_url_ne_nil (part : Str) (b : Best) (h : srcsetEntry part = some b) :
    b.candUrl ≠ [] := by
  unfold srcsetEntry at h
  cases hp : splitWs (trim part) with
  | nil => simp [hp] at h
  | cons url rest =>
    simp only [hp] at h
    by_cases hu : url = []
    · simp [hu] at h
    · simp only [hu, if_false, Option.some.injEq] at h
      rw [← h]; exact hu

theorem srcsetBest_url_ne_nil (set : Str) (b : Best) (hb : srcsetBest set = some b) :
    b.candUrl ≠ [] := by
  rw [srcsetBest_eq_firstMaxOn] at hb
  unfold firstMaxOn at hb
  have hmem : b ∈ srcsetEntries set := List.mem_of_find?_eq_some hb
  unfold srcsetEntries at hmem
  obtain ⟨part, _, hentry⟩ := List.mem_filterMap.1 hmem
  exact srcsetEntry_url_ne_nil part b hentry

theorem pushSrcset_eq (api : UrlApi) (location : Str) (urls : List Candidate) (set : Str) :
    pushSrcset api location urls set =
      urls ++
        match firstMaxOn Best.score (srcsetEntries set) with
        | none => []
        | some b =>
          match api.parse b.candUrl (some location) with
          | none => []
          | some r => [⟨r.href, b.score⟩] := by
  unfold pushSrcset
  by_cases hs : set = []
  · subst hs
    have h0 : firstMaxOn Best.score (srcsetEntries []) = none := by decide
    simp [h0]
  · simp only [hs, if_false]
    rw [← srcsetBest_eq_firstMaxOn]
    cases hb : srcsetBest set with
    | none => simp
    | some b =>
      have hu := srcsetBest_url_ne_nil set b hb
      unfold pushUrl
      simp only [hu, if_false]
      cases api.parse b.candUrl (some location) <;> simp


/-! ## Facts about the scanner -/

theorem pushUrl_urls (api : UrlApi) (location : Str) (urls : List Candidate) (u : Str)
    (area : Score) :
    (pushUrl api location urls u area).map Candidate.url =
      urls.map Candidate.url ++ (resolved api location u).toList := by
  unfold pushUrl resolved
  by_cases hu : u = []
  · simp [hu]
  · simp only [hu, if_false]
    cases api.parse u (some location) <;> simp

theorem pushUrl_mem (api : UrlApi) (location : Str) (urls : List Candidate) (u : Str)
    (area : Score) (c : Candidate) (hc : c ∈ pushUrl api location urls u area) :
    c ∈ urls ∨ c.area = area := by
  unfold pushUrl at hc
  by_cases hu : u = []
  · left; simpa [hu] using hc
  · simp only [hu, if_false] at hc
    cases hp : api.parse u (some location) with
    | none => left; simpa [hp] using hc
    | some r =>
      simp only [hp, List.mem_append, List.mem_singleton] at hc
      rcases hc with hc | hc
      · exact Or.inl hc
      · right; rw [hc]

theorem foldl_urls {α : Type} (f : List Candidate → α → List Candidate) (g : α → List Str)
    (r : Str → Option Str)
    (hf : ∀ urls x, (f urls x).map Candidate.url = urls.map Candidate.url ++ (g x).filterMap r)
    (xs : List α) (urls : List Candidate) :
    (xs.foldl f urls).map Candidate.url =
      urls.map Candidate.url ++ ((xs.map g).flatten).filterMap r := by
  induction xs generalizing urls with
  | nil => simp
  | cons x xs ih =>
    rw [List.foldl_cons, ih, hf]
    simp [List.filterMap_append]

theorem pushImg_urls (api : UrlApi) (location : Str) (urls : List Candidate) (img : Img) :
    (pushImg api location urls img).map Candidate.url =
      urls.map Candidate.url ++ [img.src].filterMap (resolved api location) := by
  unfold pushImg
  rw [pushUrl_urls]
  cases h : resolved api location img.src <;> simp [List.filterMap_cons, h]

theorem pushSrcset_urls (api : UrlApi) (location : Str) (urls : List Candidate) (set : Str) :
    (pushSrcset api location urls set).map Candidate.url =
      urls.map Candidate.url ++ (srcsetSources set).filterMap (resolved api location) := by
  unfold pushSrcset srcsetSources
  by_cases hs : set = []
  · simp [hs]
  · simp only [hs, if_false]
    cases srcsetBest set with
    | none => simp
    | some b =>
      simp only [pushUrl_urls, Option.map_some', Option.toList]
      cases h : resolved api location b.candUrl <;> simp [List.filterMap_cons, h]

theorem pushBackgroundEntry_urls (api : UrlApi) (location : Str) (urls : List Candidate)
    (entry : Str) :
    (pushBackgroundEntry api location urls entry).map Candidate.url =
      urls.map Candidate.url ++
        (matchUrl (trim entry)).toList.filterMap (resolved api location) := by
  unfold pushBackgroundEntry
  cases matchUrl (trim entry) with
  | none => simp
  | some m1 =>
    by_cases hm : m1 = []
    · simp [hm, resolved]
    · simp only [hm, if_false, pushUrl_urls, Option.toList]
      cases h : resolved api location m1 <;> simp [List.filterMap_cons, h]

theorem filterMap_toList_flatten {α β : Type} (f : α → Option β) (xs : List α) :
    (xs.map fun x => (f x).toList).flatten = xs.filterMap f := by
  induction xs with
  | nil => rfl
  | cons x xs ih =>
    cases h : f x <;> simp [List.filterMap_cons, h, ih]

theorem pushBackground_urls (api : UrlApi) (location : Str) (urls : List Candidate) (bg : Str) :
    (pushBackground api location urls bg).map Candidate.url =
      urls.map Candidate.url ++ (backgroundSources bg).filterMap (resolved api location) := by
  unfold pushBackground backgroundSources
  by_cases hb : bg = [] ∨ bg = "none".toList
  · rw [if_pos hb, if_pos hb]
    simp
  · rw [if_neg hb, if_neg hb]
    rw [foldl_urls (pushBackgroundEntry api location) (fun entry => (matchUrl (trim entry)).toList)
      (resolved api location) (pushBackgroundEntry_urls api location),
      filterMap_toList_flatten]

theorem rawCandidates_urls (api : UrlApi) (page : Page) :
    (rawCandidates api page).map Candidate.url =
      (sources page).filterMap (resolved api page.location) := by
  unfold rawCandidates sources
  rw [foldl_urls (pushBackground api page.location) backgroundSources
      (resolved api page.location) (pushBackground_urls api page.location),
    foldl_urls (pushSrcset api page.location) srcsetSources
      (resolved api page.location) (pushSrcset_urls api page.location),
    foldl_urls (pushImg api page.location) (fun img => [img.src])
      (resolved api page.location) (pushImg_urls api page.location)]
  have himg : (page.imgs.map fun img => [img.src]).flatten = page.imgs.map Img.src := by
    induction page.imgs with
    | nil => rfl
    | cons x xs ih => simp [ih]
  simp [himg, List.filterMap_append]

/-! ### Signs of scores -/

theorem Score.zero_le_int {z : ℤ} : Score.int 0 ≤ Score.int z ↔ 0 ≤ z := by
  simp [Score.le_iff, Score.gt]

theorem signed_nonneg (n : ℕ) : Score.int 0 ≤ signed false n := by
  simp [signed, Score.zero_le_int]

theorem magToScore_nonneg (mag : Mag) : Score.int 0 ≤ magToScore false mag := by
  cases mag with
  | none => simp [magToScore, Score.le_iff, Score.gt]
  | some me =>
    obtain ⟨m, e⟩ := me
    unfold magToScore
    dsimp only
    split <;> exact signed_nonneg _

theorem ofMag_isNeg (neg : Bool) (mag : Mag) : (F64.ofMag neg mag).isNeg = neg := by
  cases mag with
  | none => rfl
  | some me => rfl

theorem mul1000_isNeg (f : F64) : (mul1000 f).isNeg = f.isNeg := by
  cases f with
  | nan => rfl
  | inf neg => rfl
  | fin neg m e =>
    unfold mul1000
    dsimp only
    split <;> exact ofMag_isNeg _ _

theorem mathRound_nonneg (f : F64) (hf : f.isNeg = false) :
    Score.int 0 ≤ (mathRound f).getD (.int 0) := by
  cases f with
  | nan => simp [mathRound, Score.zero_le_int]
  | inf neg =>
    simp only [F64.isNeg] at hf
    subst hf
    simp [mathRound, Score.le_iff, Score.gt]
  | fin neg m e =>
    simp only [F64.isNeg] at hf
    subst hf
    unfold mathRound
    by_cases h0 : 0 ≤ e
    · simp only [h0, if_true, Bool.false_eq_true, if_false, Option.getD_some, Score.zero_le_int]
      positivity
    · simp only [h0, if_false, Bool.false_eq_true, Option.getD_some, Score.zero_le_int]
      apply Int.ediv_nonneg <;> positivity

theorem takeSign_fst_of_head (s : Str) (h : s.head? ≠ some '-') : (takeSign s).1 = false := by
  unfold takeSign
  split
  · next r => simp at h
  · rfl
  · rfl

theorem trimStart_of_no_ws (s : Str) (h : ∀ c ∈ s, isWhiteSpace c = false) : trimStart s = s := by
  unfold trimStart
  cases s with
  | nil => rfl
  | cons c cs => exact dropWhile_eq_self_of_head (h c (List.mem_cons_self _ _))

theorem parseInt_nonneg (s : Str) (hs : (takeSign (trimStart s)).1 = false) :
    Score.int 0 ≤ (parseInt s).getD (.int 0) := by
  unfold parseInt
  rcases hts : takeSign (trimStart s) with ⟨neg, r⟩
  rw [hts] at hs
  simp only at hs
  subst hs
  dsimp only
  split
  · simp [Score.zero_le_int]
  · exact magToScore_nonneg _

theorem parseFloat_isNeg (s : Str) (hs : (takeSign (trimStart s)).1 = false) :
    (parseFloat s).isNeg = false := by
  unfold parseFloat
  rcases hts : takeSign (trimStart s) with ⟨neg, r⟩
  rw [hts] at hs
  simp only at hs
  subst hs
  dsimp only
  split
  · rfl
  · split
    · rfl
    · split <;> exact ofMag_isNeg _ _

theorem descriptorScore_nonneg (desc : Str) (hws : ∀ c ∈ desc, isWhiteSpace c = false)
    (hminus : desc.head? ≠ some '-') : Score.int 0 ≤ descriptorScore desc := by
  have hs : (takeSign (trimStart desc)).1 = false := by
    rw [trimStart_of_no_ws desc hws]
    exact takeSign_fst_of_head desc hminus
  unfold descriptorScore
  split
  · exact parseInt_nonneg desc hs
  · split
    · apply mathRound_nonneg
      rw [mul1000_isNeg]
      exact parseFloat_isNeg desc hs
    · simp [Score.zero_le_int]

theorem splitWsAux_cons (flag : Bool) (x : Char) (xs : Str) :
    splitWsAux flag (x :: xs) =
      if isWhiteSpace x then
        if flag then splitWsAux true xs else [] :: splitWsAux true xs
      else
        match splitWsAux false xs with
        | [] => [[x]]
        | p :: ps => (x :: p) :: ps := by
  rw [splitWsAux]

theorem splitWsAux_no_ws (flag : Bool) (s : Str) :
    ∀ p ∈ splitWsAux flag s, ∀ c ∈ p, isWhiteSpace c = false := by
  induction s generalizing flag with
  | nil => simp [splitWsAux]
  | cons x xs ih =>
    intro p hp c hc
    rw [splitWsAux_cons] at hp
    by_cases hx : isWhiteSpace x = true
    · rw [if_pos hx] at hp
      cases flag with
      | true =>
        rw [if_pos rfl] at hp
        exact ih true p hp c hc
      | false =>
        rw [if_neg (by decide), List.mem_cons] at hp
        rcases hp with hp | hp
        · rw [hp] at hc; simp at hc
        · exact ih true p hp c hc
    · rw [if_neg hx] at hp
      have hx' : isWhiteSpace x = false := by simpa using hx
      cases hsp : splitWsAux false xs with
      | nil =>
        rw [hsp] at hp
        simp only [List.mem_singleton] at hp
        rw [hp, List.mem_singleton] at hc
        rw [hc]; exact hx'
      | cons q qs =>
        rw [hsp] at hp
        simp only [List.mem_cons] at hp
        rcases hp with hp | hp
        · rw [hp, List.mem_cons] at hc
          rcases hc with hc | hc
          · rw [hc]; exact hx'
          · exact ih false q (by rw [hsp]; exact List.mem_cons_self _ _) c hc
        · exact ih false p (by rw [hsp]; exact List.mem_cons_of_mem _ hp) c hc

theorem descriptorOf_no_ws (part : Str) : ∀ c ∈ descriptorOf part, isWhiteSpace c = false := by
  unfold descriptorOf
  cases h : (splitWs (trim part))[1]? with
  | none => simp
  | some d =>
    intro c hc
    have hmem : d ∈ splitWs (trim part) := by
      rw [List.getElem?_eq_some_iff] at h
      obtain ⟨hlt, hd⟩ := h
      rw [← hd]
      exact List.getElem_mem _
    exact splitWsAux_no_ws false _ d hmem c (by simpa using hc)

theorem srcsetEntry_score (part : Str) (b : Best) (h : srcsetEntry part = some b) :
    b.score = descriptorScore (descriptorOf part) := by
  unfold srcsetEntry at h
  unfold descriptorOf
  cases hp : splitWs (trim part) with
  | nil => simp [hp] at h
  | cons url rest =>
    simp only [hp] at h
    by_cases hu : url = []
    · simp [hu] at h
    · simp only [hu, if_false, Option.some.injEq] at h
      rw [← h]
      cases rest <;> simp

theorem srcsetBest_nonneg (set : Str)
    (h : ∀ part ∈ splitOn ',' set, (descriptorOf part).head? ≠ some '-') (b : Best)
    (hb : srcsetBest set = some b) : Score.int 0 ≤ b.score := by
  rw [srcsetBest_eq_firstMaxOn] at hb
  unfold firstMaxOn at hb
  have hmem : b ∈ srcsetEntries set := List.mem_of_find?_eq_some hb
  unfold srcsetEntries at hmem
  obtain ⟨part, hpart, hentry⟩ := List.mem_filterMap.1 hmem
  rw [srcsetEntry_score part b hentry]
  exact descriptorScore_nonneg _ (descriptorOf_no_ws part) (h part hpart)

theorem foldl_all {α : Type} (P : Candidate → Prop) (f : List Candidate → α → List Candidate)
    (xs : List α) (hf : ∀ urls, ∀ x ∈ xs, (∀ c ∈ urls, P c) → ∀ c ∈ f urls x, P c)
    (urls : List Candidate) (hu : ∀ c ∈ urls, P c) : ∀ c ∈ xs.foldl f urls, P c := by
  induction xs generalizing urls with
  | nil => exact hu
  | cons x xs ih =>
    rw [List.foldl_cons]
    apply ih (fun urls y hy => hf urls y (List.mem_cons_of_mem _ hy))
    exact hf urls x (List.mem_cons_self _ _) hu

theorem rawCandidates_nonneg (api : UrlApi) (page : Page)
    (h : ∀ set ∈ page.srcsets, ∀ part ∈ splitOn ',' set, (descriptorOf part).head? ≠ some '-') :
    ∀ c ∈ rawCandidates api page, Score.int 0 ≤ c.area := by
  unfold rawCandidates
  apply foldl_all
  · intro urls bg _ hu
    unfold pushBackground
    split
    · exact hu
    · apply foldl_all
      · intro urls entry _ hu c hc
        unfold pushBackgroundEntry at hc
        split at hc
        · split at hc
          · exact hu c hc
          · rcases pushUrl_mem _ _ _ _ _ c hc with hc | hc
            · exact hu c hc
            · rw [hc]; exact Score.le_refl _
        · exact hu c hc
      · exact hu
  · apply foldl_all
    · intro urls set hset hu c hc
      unfold pushSrcset at hc
      split at hc
      · exact hu c hc
      · split at hc
        · next best hbest =>
          rcases pushUrl_mem _ _ _ _ _ c hc with hc | hc
          · exact hu c hc
          · rw [hc]; exact srcsetBest_nonneg set (h set hset) best hbest
        · exact hu c hc
    · apply foldl_all
      · intro urls img _ hu c hc
        unfold pushImg at hc
        rcases pushUrl_mem _ _ _ _ _ c hc with hc | hc
        · exact hu c hc
        · rw [hc]; exact magToScore_nonneg _
      · simp

theorem mem_scan_mem_raw (api : UrlApi) (page : Page) (c : Candidate) (hc : c ∈ scan api page) :
    c ∈ rawCandidates api page :=
  ((seenInv_dedup (rawCandidates api page)).best _ (mem_dedup.1 hc)).1

/-! ## The claims -/

/-- C4: the per-page deduplication returns a list in which no two entries have
the same URL, whose URLs are exactly the URLs of the raw list, and in which
every entry is a raw candidate whose score no raw candidate with the same URL
exceeds; the scanner returns the deduplication of what its three strategies
pushed. -/
theorem dedup_keeps_max_score_per_url (raw : List Candidate) :
    ((dedup raw).map Candidate.url).Nodup ∧
    (∀ u, u ∈ (dedup raw).map Candidate.url ↔ u ∈ raw.map Candidate.url) ∧
    (∀ c ∈ dedup raw, c ∈ raw ∧ ∀ r ∈ raw, r.url = c.url → r.area ≤ c.area) ∧
    (∀ api page, scan api page = dedup (rawCandidates api page)) := by
  have inv := seenInv_dedup raw
  refine ⟨?_, ?_, ?_, fun _ _ => rfl⟩
  · rw [dedup_urls]; exact inv.nodup
  · intro u
    rw [dedup_urls]; exact inv.keys u
  · intro c hc
    exact inv.best _ (mem_dedup.1 hc)

/-- C8: the per-page deduplication is idempotent: applied to its own output it
returns that output unchanged, entry for entry and in the same order. -/
theorem dedup_idempotent (raw : List Candidate) : dedup (dedup raw) = dedup raw :=
  dedup_of_nodup _ (by rw [dedup_urls]; exact (seenInv_dedup raw).nodup)

/-- C1: in a `downloadAll` run whose folder resolves, the URLs submitted to the
download service are, in order, the candidate URLs of the admissible tabs in
tab order with every repeat of an earlier URL removed; so no URL is submitted
twice, and a URL found in a successfully scanned tab is submitted exactly
once, also when several tabs expose it. -/
theorem downloadAll_submits_each_url_once (w : World) (folder : Str)
    (hfolder : w.getFolder ((queryWindowTabs w).head?.map Tab.id) = some folder) :
    ∃ run, downloadAll w = some run ∧
      run.submitted.map Submission.url = removeRepeats (scannedUrls w) ∧
      (∀ u, timesSubmitted u run ≤ 1) ∧
      (∀ u ∈ scannedUrls w, timesSubmitted u run = 1) := by
  have hex : ∃ run, downloadAll w = some run ∧
      run.submitted.map Submission.url = removeRepeats (scannedUrls w) := by
    by_cases ht : queryWindowTabs w = []
    · refine ⟨⟨[], none⟩, ?_, ?_⟩
      · simp only [downloadAll, ht, if_true]
      · simp [scannedUrls, ht, removeRepeats]
    · refine ⟨⟨((queryWindowTabs w).foldl (downloadAllTab w folder) initialState).submitted,
        ((queryWindowTabs w).foldl (downloadAllTab w folder) initialState).firstDownloadId⟩,
        ?_, ?_⟩
      · simp only [downloadAll, ht, if_false, hfolder]
      · have h := (downloadAllTab_fold w folder (queryWindowTabs w) initialState).2
        simpa [initialState, scannedUrls] using h
  obtain ⟨run, hrun, hurls⟩ := hex
  have hnd : (run.submitted.map Submission.url).Nodup := by
    rw [hurls]; exact nodup_removeRepeats _
  refine ⟨run, hrun, hurls, ?_, ?_⟩
  · intro u
    exact filter_length_le_one_of_nodup u hnd
  · intro u hu
    have h1 := filter_length_le_one_of_nodup u hnd
    have h2 : 0 < (run.submitted.filter (fun s => decide (s.url = u))).length :=
      filter_length_pos_of_mem (by rw [hurls]; exact mem_removeRepeats.2 hu)
    unfold timesSubmitted
    omega

/-- Witness of C1: two tabs both expose `https://cdn.test/a.jpg`; the run
submits it once, before the other URLs in encounter order. -/
theorem downloadAll_submits_each_url_once_witness :
    twoTabsSameImage.getFolder ((queryWindowTabs twoTabsSameImage).head?.map Tab.id) =
      some "AllTabsImages".toList ∧
    (downloadAll twoTabsSameImage).map (fun r => r.submitted.map Submission.url) =
      some ["https://cdn.test/a.jpg".toList, "https://one.test/logo".toList,
        "https://cdn.test/b.png".toList] ∧
    ∃ run, downloadAll twoTabsSameImage = some run ∧
      run.submitted.map Submission.url = removeRepeats (scannedUrls twoTabsSameImage) ∧
      (∀ u, timesSubmitted u run ≤ 1) ∧
      (∀ u ∈ scannedUrls twoTabsSameImage, timesSubmitted u run = 1) :=
  ⟨by decide, by decide,
    downloadAll_submits_each_url_once twoTabsSameImage "AllTabsImages".toList (by decide)⟩

/-- C2: in a `downloadLargestPerTab` run whose folder resolves, the submitted
URLs are, tab after tab, one URL for each admissible tab whose scan returned a
non-empty list, namely that of the first candidate whose score is the maximum
of the list, and none for a tab whose scan returned no candidate or failed; a
non-empty list always has such a candidate, and for scores `[100, 50, 900]` it
is the candidate scored `900`. -/
theorem downloadLargestPerTab_submits_first_max (w : World) (folder : Str)
    (hfolder : w.getFolder ((queryWindowTabs w).head?.map Tab.id) = some folder) :
    ∃ run, downloadLargestPerTab w = some run ∧
      run.submitted.map Submission.url = (queryWindowTabs w).filterMap (fun t =>
        match collectImages w t.id t.url with
        | some imgs => (firstMax imgs).map Candidate.url
        | none => none) ∧
      firstMax [] = none ∧
      (∀ c l, ∃ b ∈ c :: l, firstMax (c :: l) = some b) ∧
      (∀ u₁ u₂ u₃ : Str, firstMax [⟨u₁, .int 100⟩, ⟨u₂, .int 50⟩, ⟨u₃, .int 900⟩] =
        some ⟨u₃, .int 900⟩) := by
  have hex : ∃ run, downloadLargestPerTab w = some run ∧
      run.submitted.map Submission.url = (queryWindowTabs w).filterMap (fun t =>
        match collectImages w t.id t.url with
        | some imgs => (firstMax imgs).map Candidate.url
        | none => none) := by
    by_cases ht : queryWindowTabs w = []
    · refine ⟨⟨[], none⟩, ?_, ?_⟩
      · simp only [downloadLargestPerTab, ht, if_true]
      · simp [ht]
    · refine ⟨⟨((queryWindowTabs w).foldl (downloadLargestTab w folder) initialState).submitted,
        ((queryWindowTabs w).foldl (downloadLargestTab w folder) initialState).firstDownloadId⟩,
        ?_, ?_⟩
      · simp only [downloadLargestPerTab, ht, if_false, hfolder]
      · have h := downloadLargestTab_fold w folder (queryWindowTabs w) initialState
        simpa [initialState] using h
  obtain ⟨run, hrun, hurls⟩ := hex
  refine ⟨run, hrun, hurls, rfl, ?_, ?_⟩
  · intro c l
    refine ⟨reduceBest c (c :: l), ?_, reduceBest_eq_firstMax c l⟩
    have h := reduceBest_eq_firstMax c l
    unfold firstMax firstMaxOn at h
    exact List.mem_of_find?_eq_some h
  · intro u₁ u₂ u₃
    rw [reduceBest_eq_firstMax]
    simp [reduceBest, Score.gt]

/-- Witness of C2: a tab with candidates scored `100`, `50` and `900`; the run
submits one request, for the candidate scored `900`. -/
theorem downloadLargestPerTab_submits_first_max_witness :
    oneTabThreeScores.getFolder ((queryWindowTabs oneTabThreeScores).head?.map Tab.id) =
      some "AllTabsImages".toList ∧
    downloadLargestPerTab oneTabThreeScores =
      some ⟨[⟨"https://cdn.test/large.jpg".toList, "AllTabsImages/large.jpg".toList⟩],
        some 10⟩ ∧
    ∃ run, downloadLargestPerTab oneTabThreeScores = some run ∧
      run.submitted.map Submission.url = (queryWindowTabs oneTabThreeScores).filterMap (fun t =>
        match collectImages oneTabThreeScores t.id t.url with
        | some imgs => (firstMax imgs).map Candidate.url
        | none => none) :=
  have h := downloadLargestPerTab_submits_first_max oneTabThreeScores "AllTabsImages".toList
    (by decide)
  ⟨by decide, by decide, h.imp fun _ hr => ⟨hr.1, hr.2.1⟩⟩

/-- C7: `makeFilename` returns `<folder>/<basename>`: when the URL parses and
its path has a last non-empty segment `s`, the base name is `s` if `s` holds a
dot and `s.png` otherwise; when the URL does not parse or its path has no
non-empty segment, the base name is `image-<counter>.png`.  So
`https://x.test/path/photo` gives `<folder>/photo.png`, and the unparsable
`not a url` with counter `3` gives `<folder>/image-3.png`. -/
theorem makeFilename_is_folder_slash_baseName (api : UrlApi) (folder url : Str) (index : ℕ) :
    makeFilename api folder url index = folder ++ "/".toList ++ baseName api url index ∧
    makeFilename plainUrl folder "https://x.test/path/photo".toList index =
      folder ++ "/photo.png".toList ∧
    makeFilename plainUrl folder "not a url".toList 3 = folder ++ "/image-3.png".toList := by
  refine ⟨makeFilename_eq api folder url index, ?_, ?_⟩
  · have hparse : plainUrl.parse "https://x.test/path/photo".toList none =
        some ⟨"https://x.test/path/photo".toList, "https:".toList, "/path/photo".toList⟩ := by
      decide
    have hseg : lastSegment "/path/photo".toList = some "photo".toList := by decide
    rw [makeFilename_eq]
    simp only [baseName, hparse, hseg]
    have hdot : ¬ '.' ∈ "photo".toList := by decide
    rw [if_neg hdot]
    simp
  · have hparse : plainUrl.parse "not a url".toList none = none := by decide
    rw [makeFilename_eq]
    simp only [baseName, hparse]
    have hd : Nat.toDigits 10 3 = ['3'] := by decide
    rw [hd]
    simp

/-- C3: a scan failure is isolated to its tab.  When the scan of a tab is
rejected in a run whose folder resolves, `downloadAll` and
`downloadLargestPerTab` do exactly what they do when that scan returns an empty
list; the requests submitted do not depend on which submissions the download
service rejects, so a failed submission prevents no later one; and the listener
answers `{ ok: true }` to both commands. -/
theorem scan_failure_is_isolated (w : World) (folder : Str) (t : Tab)
    (hfolder : w.getFolder ((queryWindowTabs w).head?.map Tab.id) = some folder)
    (hscan : collectImages w t.id t.url = none) :
    downloadAll w = downloadAll (w.withEmptyScan t.id) ∧
    downloadLargestPerTab w = downloadLargestPerTab (w.withEmptyScan t.id) ∧
    (∀ d, (downloadAll (w.withDownload d)).map Run.submitted =
      (downloadAll w).map Run.submitted) ∧
    (∀ d, (downloadLargestPerTab (w.withDownload d)).map Run.submitted =
      (downloadLargestPerTab w).map Run.submitted) ∧
    onMessage w .download = some ⟨true⟩ ∧
    onMessage w .downloadLargest = some ⟨true⟩ := by
  have hfail := executeScript_of_collectImages_none hscan
  refine ⟨(downloadAll_withEmptyScan w t.id hfail).symm,
    (downloadLargestPerTab_withEmptyScan w t.id hfail).symm,
    downloadAll_withDownload w, downloadLargestPerTab_withDownload w, ?_, ?_⟩
  · obtain ⟨run, hrun⟩ := downloadAll_isSome w folder hfolder
    simp [onMessage, hrun]
  · obtain ⟨run, hrun⟩ := downloadLargestPerTab_isSome w folder hfolder
    simp [onMessage, hrun]

/-- Witness of C3: tab 2 of 3 is rejected during its scan and the first
submission fails; the candidates of tabs 1 and 3 are all submitted and the
listener answers `{ ok: true }`. -/
theorem scan_failure_is_isolated_witness :
    collectImages secondTabFails 2 (some "https://two.test/".toList) = none ∧
    (downloadAll secondTabFails).map (fun r => r.submitted.map Submission.url) =
      some ["https://cdn.test/a.jpg".toList, "https://cdn.test/b.jpg".toList,
        "https://cdn.test/c.png".toList] ∧
    (downloadAll secondTabFails).map Run.revealed = some (some 11) ∧
    downloadAll secondTabFails = downloadAll (secondTabFails.withEmptyScan 2) ∧
    onMessage secondTabFails .download = some ⟨true⟩ :=
  have h := scan_failure_is_isolated secondTabFails "AllTabsImages".toList
    (tabAt 2 "https://two.test/") (by decide) (by decide)
  ⟨by decide, by decide, by decide, h.1, h.2.2.2.2.1⟩

/-- C5, as the code behaves: of a `srcset` value, split on commas and each
part on white space, the scanner keeps the first entry with a non-empty URL
whose score is the maximum over all such entries, and pushes exactly that
entry, resolved against the page location, with that score (nothing when there
is no such entry or its URL does not resolve).  A descriptor is scored by its
last character: ending in `w`, the integer that `parseInt` reads at its head;
ending in `x`, `Math.round` of `1000` times the number that `parseFloat` reads
at its head; `0` when it ends in neither or no number can be read.  For a
decimal integer `N` followed by `w` or `x` this is the score of the strict
reading, `N` and `1000 * N`; `1.5x` scores `1500`, and `a.jpg 1x, b.jpg 2x`
keeps `b.jpg` with score `2000`. -/
theorem srcset_keeps_first_best_entry (set : Str) :
    srcsetBest set = firstMaxOn Best.score (srcsetEntries set) ∧
    (∀ desc, descScore desc = descriptorScore desc) ∧
    (∀ (api : UrlApi) (location : Str) (urls : List Candidate),
      pushSrcset api location urls set =
        urls ++
          match firstMaxOn Best.score (srcsetEntries set) with
          | none => []
          | some b =>
            match api.parse b.candUrl (some location) with
            | none => []
            | some r => [⟨r.href, b.score⟩]) ∧
    (∀ ds : Str, ds ≠ [] → (∀ c ∈ ds, isDigit c = true) →
      descriptorScore (ds ++ ['w']) = strictScore (ds ++ ['w']) ∧
      descriptorScore (ds ++ ['x']) = strictScore (ds ++ ['x'])) ∧
    (∀ ds : Str, ds ≠ [] → (∀ c ∈ ds, isDigit c = true) → digitsValue ds < 2 ^ 53 →
      descriptorScore (ds ++ ['w']) = .int (digitsValue ds)) ∧
    (∀ ds : Str, ds ≠ [] → (∀ c ∈ ds, isDigit c = true) → 1000 * digitsValue ds < 2 ^ 53 →
      descriptorScore (ds ++ ['x']) = .int (1000 * digitsValue ds)) ∧
    descriptorScore "1.5x".toList = .int 1500 ∧
    descriptorScore "5wx".toList = .int 5000 ∧
    descriptorScore "1.9w".toList = .int 1 ∧
    descriptorScore "12pxw".toList = .int 12 ∧
    descriptorScore "wide".toList = .int 0 ∧
    descriptorScore "400".toList = .int 0 ∧
    descriptorScore [] = .int 0 ∧
    srcsetBest "a.jpg 1x, b.jpg 2x".toList = some ⟨"b.jpg".toList, .int 2000⟩ :=
  ⟨srcsetBest_eq_firstMaxOn set, descScore_eq_descriptorScore,
    fun api location urls => pushSrcset_eq api location urls set,
    fun ds hne hds => ⟨descriptorScore_eq_strictScore_width ds hne hds,
      descriptorScore_eq_strictScore_density ds hne hds⟩,
    descriptorScore_width, descriptorScore_density, by decide, by decide, by decide, by decide,
    by decide, by decide, by decide, by decide⟩

/-- Witness of the amended C5: the value `a.jpg 400w, b.jpg 800w` on a page at
`https://x.test/`, and the descriptors `400w` and `2x`. -/
theorem srcset_keeps_first_best_entry_witness :
    srcsetBest "a.jpg 400w, b.jpg 800w".toList =
      firstMaxOn Best.score (srcsetEntries "a.jpg 400w, b.jpg 800w".toList) ∧
    srcsetBest "a.jpg 400w, b.jpg 800w".toList = some ⟨"b.jpg".toList, .int 800⟩ ∧
    pushSrcset plainUrl "https://x.test/".toList [] "a.jpg 400w, b.jpg 800w".toList =
      [⟨"https://x.test/b.jpg".toList, .int 800⟩] ∧
    descriptorScore ("400".toList ++ ['w']) = .int (digitsValue "400".toList) ∧
    descriptorScore ("2".toList ++ ['x']) = .int (1000 * digitsValue "2".toList) ∧
    descriptorScore ("2".toList ++ ['x']) = strictScore ("2".toList ++ ['x']) :=
  have h := srcset_keeps_first_best_entry "a.jpg 400w, b.jpg 800w".toList
  ⟨h.1, by decide, by decide,
    h.2.2.2.2.1 "400".toList (by decide) (by decide) (by decide),
    h.2.2.2.2.2.1 "2".toList (by decide) (by decide) (by decide),
    (h.2.2.2.1 "2".toList (by decide) (by decide)).2⟩

/-- C5 as stated fails: in `a.jpg 5wx, b.jpg 800w` the descriptor `5wx` is
neither a width nor a density descriptor, so the stated rule scores it `0` and
the first best entry would be `b.jpg` with `800`; the code reads `5` at its
head, scores it `5000` and keeps `a.jpg`. -/
theorem srcset_scores_malformed_descriptor :
    strictScore "5wx".toList = .int 0 ∧
    descScore "5wx".toList = .int 5000 ∧
    firstMaxOn Best.score (strictEntries "a.jpg 5wx, b.jpg 800w".toList) =
      some ⟨"b.jpg".toList, .int 800⟩ ∧
    srcsetBest "a.jpg 5wx, b.jpg 800w".toList = some ⟨"a.jpg".toList, .int 5000⟩ ∧
    srcsetBest "a.jpg 5wx, b.jpg 800w".toList ≠
      firstMaxOn Best.score (strictEntries "a.jpg 5wx, b.jpg 800w".toList) := by
  refine ⟨by decide, by decide, by decide, by decide, by decide⟩

/-- C6, as the code behaves: for `a.jpg 400w, b.jpg 800w, c.jpg 1x` the
candidate kept by the `srcset` strategy is `c.jpg` with score `1000`, because
the density descriptor `1x` scores `1000`, more than `800`; on a page at
`https://x.test/` the scanner returns it as `https://x.test/c.jpg`. -/
theorem srcset_example_keeps_density_entry :
    srcsetBest "a.jpg 400w, b.jpg 800w, c.jpg 1x".toList = some ⟨"c.jpg".toList, .int 1000⟩ ∧
    descScore "800w".toList = .int 800 ∧
    descScore "1x".toList = .int 1000 ∧
    scan plainUrl ⟨"https://x.test/".toList, [],
        ["a.jpg 400w, b.jpg 800w, c.jpg 1x".toList], []⟩ =
      [⟨"https://x.test/c.jpg".toList, .int 1000⟩] := by
  refine ⟨by decide, by decide, by decide, by decide⟩

/-- C6 as stated fails: for `a.jpg 400w, b.jpg 800w, c.jpg 1x` the kept
candidate is not `b.jpg` with score `800`. -/
theorem srcset_example_not_width_entry :
    srcsetBest "a.jpg 400w, b.jpg 800w, c.jpg 1x".toList ≠ some ⟨"b.jpg".toList, .int 800⟩ := by
  decide

/-- C9, as the code behaves: the scanner does not filter element sources by
scheme.  The URLs it returns are exactly the resolved forms of the non-empty
sources found by its three strategies: a source is dropped only when it is
empty or when resolving it against the page location fails, whatever its
scheme. -/
theorem scan_urls_are_resolved_sources (api : UrlApi) (page : Page) (u : Str) :
    u ∈ (scan api page).map Candidate.url ↔
      ∃ s ∈ sources page, s ≠ [] ∧
        ∃ r, api.parse s (some page.location) = some r ∧ r.href = u := by
  have h1 : u ∈ (scan api page).map Candidate.url ↔
      u ∈ (rawCandidates api page).map Candidate.url := by
    unfold scan
    rw [dedup_urls]
    exact (seenInv_dedup (rawCandidates api page)).keys u
  rw [h1, rawCandidates_urls, List.mem_filterMap]
  constructor
  · rintro ⟨s, hs, hr⟩
    unfold resolved at hr
    by_cases hne : s = []
    · simp [hne] at hr
    · simp only [hne, if_false, Option.map_eq_some'] at hr
      obtain ⟨r, hr1, hr2⟩ := hr
      exact ⟨s, hs, hne, r, hr1, hr2⟩
  · rintro ⟨s, hs, hne, r, hr1, hr2⟩
    refine ⟨s, hs, ?_⟩
    unfold resolved
    simp [hne, hr1, hr2]

/-- C9 as stated fails: on a page at `https://x.test/` whose only image has a
`data:` source, that source resolves, and the scanner returns a candidate
whose scheme is not `http`, `https` or `file`. -/
theorem scan_returns_data_url :
    plainUrl.parse "data:image/png;base64,AAAA".toList (some dataImagePage.location) =
      some ⟨"data:image/png;base64,AAAA".toList, "data:".toList,
        "image/png;base64,AAAA".toList⟩ ∧
    scan plainUrl dataImagePage = [⟨"data:image/png;base64,AAAA".toList, .int 1⟩] ∧
    ¬ ∀ c ∈ scan plainUrl dataImagePage, isAllowedUrl plainUrl (some c.url) = true := by
  refine ⟨by decide, by decide, by decide⟩

/-- C10, as the code behaves: on a page none of whose `srcset` descriptors
begins with a minus sign, every candidate returned by the scanner has a
non-negative score. -/
theorem scan_scores_nonneg (api : UrlApi) (page : Page)
    (h : ∀ set ∈ page.srcsets, ∀ part ∈ splitOn ',' set,
      (descriptorOf part).head? ≠ some '-') :
    ∀ c ∈ scan api page, Score.int 0 ≤ c.area :=
  fun c hc => rawCandidates_nonneg api page h c (mem_scan_mem_raw api page c hc)

/-- Witness of the amended C10: a page with a sized image, a `srcset` with a
width and a density descriptor, and two CSS backgrounds. -/
theorem scan_scores_nonneg_witness :
    (∀ set ∈ galleryPage.srcsets, ∀ part ∈ splitOn ',' set,
      (descriptorOf part).head? ≠ some '-') ∧
    scan plainUrl galleryPage =
      [⟨"https://x.test/gallery/a.jpg".toList, .int 307200⟩,
        ⟨"https://x.test/gallery/c.jpg".toList, .int 2000⟩,
        ⟨"https://x.test/bg.png".toList, .int 0⟩] ∧
    ∀ c ∈ scan plainUrl galleryPage, Score.int 0 ≤ c.area :=
  ⟨by decide, by decide, scan_scores_nonneg plainUrl galleryPage (by decide)⟩

/-- C10 as stated fails: on a page whose only `srcset` is `a.jpg -5w` the
scanner returns that entry with the score `-5`. -/
theorem scan_returns_negative_score :
    scan plainUrl negativeWidthPage = [⟨"https://x.test/a.jpg".toList, .int (-5)⟩] ∧
    ¬ ∀ c ∈ scan plainUrl negativeWidthPage, Score.int 0 ≤ c.area := by
  refine ⟨by decide, by decide⟩

end SaveAllTabImages
